import Mathlib

set_option maxRecDepth 4000

/-!
Verification development for the Holley Sniper EFI datalog parser
(`dlz_parser.py`): a shallow embedding of the parsing pipeline
(decompression dispatch, text parser, binary recovery parser, raw
extraction fallback) and of the segment/statistics engine
(WOT runs, acceleration-enrichment events), together with theorems
checking the specification's claims against that embedding.

Strings are modelled as `List Char`, bytes as `Nat` (0..255), and
IEEE-754 binary32 values as exact rationals (`ℚ`), with NaN/infinity
decoding to `none`.
-/

namespace Dlz

/-- Convert a string literal to the `List Char` representation used
throughout the embedding. -/
def str (s : String) : List Char := s.data

/-- A single datalog record: the Python dict `data` of
`DatalogRecord`, modelled as an association list with unique keys in
first-insertion order. -/
abbrev Rec := List (List Char × ℚ)

/-- Embeds `DatalogRecord.get(key, default)` for a caller-supplied
numeric default (every analysis call site passes one explicitly). -/
def recGetD (r : Rec) (k : List Char) (d : ℚ) : ℚ :=
  match r.lookup k with
  | some v => v
  | none => d

/-- Embeds `DatalogRecord.get(key)` with Python's implicit
`default=None`: a missing channel yields `none`, not a number. -/
def recGet (r : Rec) (k : List Char) : Option ℚ :=
  r.lookup k

/-- Python dict insertion: overwrite the value in place if the key is
present, else append the new binding. -/
def dictInsert (d : Rec) (k : List Char) (v : ℚ) : Rec :=
  if d.any (fun p => p.1 = k) then
    d.map (fun p => if p.1 = k then (p.1, v) else p)
  else
    d ++ [(k, v)]

/-- Build a Python dict from a key/value sequence, later bindings
overwriting earlier ones (as in the row-building loops of the parser). -/
def pyDict (l : List (List Char × ℚ)) : Rec :=
  l.foldl (fun d p => dictInsert d p.1 p.2) []

/-- The `SNIPER_CHANNELS` catalog keys, in dict insertion order. -/
def sniperChannelKeys : List (List Char) :=
  [str "timestamp_ms", str "rpm", str "map_kpa", str "tps_pct",
   str "coolant_temp_f", str "iat_f", str "afr", str "target_afr",
   str "fuel_flow_lbhr", str "inj_pw_ms", str "ign_timing_deg",
   str "battery_v", str "cl_comp_pct", str "learn_pct", str "ae_active",
   str "iac_counts", str "vss_mph", str "fuel_pressure_psi",
   str "cl_status", str "tps_roc", str "map_roc"]

/-- The `SniperDatalog` object.  The metadata dict is modelled by the
two keys the parser ever writes (`raw_floats_found`, `file_size_bytes`),
as an association list of naturals. -/
structure SniperDatalog where
  records : List Rec
  channels : List (List Char)
  sample_rate_hz : ℚ
  metadata : List (List Char × Nat)
  filename : List Char
  parse_errors : List (List Char)
deriving DecidableEq

/-- A fresh `SniperDatalog()` with the given filename assigned. -/
def mkEmpty (filename : List Char) : SniperDatalog :=
  { records := [], channels := [], sample_rate_hz := 10, metadata := [],
    filename := filename, parse_errors := [] }

/-- Embeds `SniperDatalog.get_channel_data`. -/
def get_channel_data (dl : SniperDatalog) (channel : List Char) : List ℚ :=
  dl.records.map (fun r => recGetD r channel 0)

/-- The loop body of `get_wot_runs`: `rs` is the unprocessed suffix of
`records`, `i` the index of its head, `in_wot`/`start`/`acc` the loop
state.  The epilogue embeds the end-of-data retention check. -/
def wotGo (n : Nat) (thr : ℚ) :
    List Rec → Nat → Bool → Nat → List (Nat × Nat) → List (Nat × Nat)
  | [], _, in_wot, start, acc =>
      if in_wot ∧ n - start > 3 then acc ++ [(start, n - 1)] else acc
  | r :: rest, i, in_wot, start, acc =>
      let tps := recGetD r (str "tps_pct") 0
      if thr ≤ tps ∧ ¬ in_wot then
        wotGo n thr rest (i + 1) true i acc
      else if tps < thr ∧ in_wot then
        wotGo n thr rest (i + 1) false start
          (if i - start > 3 then acc ++ [(start, i)] else acc)
      else
        wotGo n thr rest (i + 1) in_wot start acc

/-- Embeds `SniperDatalog.get_wot_runs` (threshold default 85.0). -/
def get_wot_runs (records : List Rec) (thr : ℚ) : List (Nat × Nat) :=
  wotGo records.length thr records 0 false 0 []

/-- Number of consecutive records from index `s` whose throttle
position is at or above the threshold: the sample length of the
(maximal) WOT run starting at `s`. -/
def streakLen (records : List Rec) (thr : ℚ) (s : Nat) : Nat :=
  ((records.drop s).takeWhile (fun r => thr ≤ recGetD r (str "tps_pct") 0)).length

/-- Python truthiness of `rec.get("ae_active", 0)`: a float is truthy
iff it is nonzero. -/
def aeTruthy (r : Rec) : Bool :=
  decide (recGetD r (str "ae_active") 0 ≠ 0)

/-- One acceleration-enrichment event dict, as built at a falling edge
of the `ae_active` flag. -/
structure AeEvent where
  start : Nat
  stop : Nat
  duration_samples : Nat
  peak_tps_roc : ℚ
  afr_during : List ℚ
deriving DecidableEq

/-- Python's `max` over a value sequence.  The empty case (on which
Python would raise) is unreachable at the single call site, where the
span from a rising to a falling edge is nonempty. -/
def pyMax : List ℚ → ℚ
  | [] => 0
  | x :: xs => xs.foldl max x

/-- The event dict appended by `analyze_acceleration_enrichment` when
the flag falls at index `i` after rising at index `s`. -/
def mkAeEvent (recs : List Rec) (s i : Nat) : AeEvent :=
  { start := s, stop := i, duration_samples := i - s,
    peak_tps_roc :=
      pyMax ((List.range' s (i - s)).map
        (fun j => recGetD (recs.getD j []) (str "tps_roc") 0)),
    afr_during :=
      (List.range' s (min (i + 10) recs.length - s)).map
        (fun j => recGetD (recs.getD j []) (str "afr") (147/10)) }

/-- The edge-detection loop of `analyze_acceleration_enrichment`:
`rs` is the unprocessed suffix of `recs`, `i` the index of its head. -/
def aeGo (recs : List Rec) :
    List Rec → Nat → Bool → Nat → List AeEvent → List AeEvent
  | [], _, _, _, acc => acc
  | r :: rest, i, active, start, acc =>
      if aeTruthy r ∧ ¬ active then
        aeGo recs rest (i + 1) true i acc
      else if ¬ aeTruthy r ∧ active then
        aeGo recs rest (i + 1) false start (acc ++ [mkAeEvent recs start i])
      else
        aeGo recs rest (i + 1) active start acc

/-- The full list of detected AE events, in detection order. -/
def aeEventsList (recs : List Rec) : List AeEvent :=
  aeGo recs recs 0 false 0 []

/-- Mean measured ratio over a captured trace, with the 14.7 default of
the source for an empty trace. -/
def aeAvg (l : List ℚ) : ℚ :=
  if l = [] then 147/10 else l.sum / l.length

/-- The lean/rich counting loop over the detected events: `if avg_afr >
14.0` increments lean, `elif avg_afr < 11.5` increments rich. -/
def aeClassify (evs : List AeEvent) : Nat × Nat :=
  evs.foldl
    (fun lr e =>
      let avg := aeAvg e.afr_during
      if avg > 14 then (lr.1 + 1, lr.2)
      else if avg < 23/2 then (lr.1, lr.2 + 1)
      else lr)
    (0, 0)

/-- The dict returned by `analyze_acceleration_enrichment`. -/
structure AeAnalysis where
  total_ae_events : Nat
  lean_ae_events : Nat
  rich_ae_events : Nat
  ae_events : List AeEvent
deriving DecidableEq

/-- Embeds `SniperDatalog.analyze_acceleration_enrichment`. -/
def analyze_acceleration_enrichment (recs : List Rec) : AeAnalysis :=
  let evs := aeEventsList recs
  let lr := aeClassify evs
  { total_ae_events := evs.length,
    lean_ae_events := lr.1,
    rich_ae_events := lr.2,
    ae_events := evs.take 20 }

/-- The throttle sequence `[2,3,90,92,95,91,4,3]` of the WOT example. -/
def wotExampleRecords : List Rec :=
  [[(str "tps_pct", 2)], [(str "tps_pct", 3)], [(str "tps_pct", 90)],
   [(str "tps_pct", 92)], [(str "tps_pct", 95)], [(str "tps_pct", 91)],
   [(str "tps_pct", 4)], [(str "tps_pct", 3)]]

/-- A record with the acceleration-enrichment flag set. -/
def aeOnRecord : Rec :=
  [(str "ae_active", 1), (str "afr", 13), (str "tps_roc", 2)]

/-- A record with the acceleration-enrichment flag clear. -/
def aeOffRecord : Rec :=
  [(str "ae_active", 0), (str "afr", 13), (str "tps_roc", 0)]

/-- Twenty-one on/off flag pulses: twenty-one AE events. -/
def aeAltRecords : List Rec :=
  (List.range 21).flatMap (fun _ => [aeOnRecord, aeOffRecord])

/-- Five records with the flag held high through end-of-data. -/
def aeAllOnRecords : List Rec :=
  List.replicate 5 aeOnRecord

/-- Five records at wide-open throttle through end-of-data. -/
def wotOpenRecords : List Rec :=
  List.replicate 5 ([(str "tps_pct", 90)] : Rec)

/-- A one-record datalog carrying only an `rpm` channel. -/
def exampleDatalog : SniperDatalog :=
  { records := [[(str "rpm", 5)]], channels := [str "rpm"],
    sample_rate_hz := 10, metadata := [], filename := [],
    parse_errors := [] }

/-- Properties of every event built by the AE detection loop. -/
def aeGoalP (recs : List Rec) (e : AeEvent) : Prop :=
  e.start < e.stop ∧ e.stop < recs.length ∧
  aeTruthy (recs.getD e.stop []) = false ∧ e.afr_during ≠ []

/-- `os.path.basename`: the part of the path after the last slash. -/
def basename (p : List Char) : List Char :=
  (p.reverse.takeWhile (fun c => ¬ (c = '/'))).reverse

/-- One byte of the buffer as `struct.unpack_from` reads it; every
call site is guarded to be in bounds, so the 0 default is never the
value of an actual read. -/
def byteAt (data : List Nat) (i : Nat) : Nat := data.getD i 0

/-- Exact value of a little-endian IEEE-754 binary32 with bytes
`b0..b3` (least significant first).  NaN and the two infinities decode
to `none`; in every comparison below a `none` fails the test, exactly
as Python's NaN/±inf fail the corresponding range checks. -/
def decodeF32 (b0 b1 b2 b3 : Nat) : Option ℚ :=
  let bits : Nat := b0 % 256 + 256 * (b1 % 256) + 65536 * (b2 % 256)
    + 16777216 * (b3 % 256)
  let sign : Nat := bits / 2 ^ 31
  let expo : Nat := bits / 2 ^ 23 % 256
  let mant : Nat := bits % 2 ^ 23
  if expo = 255 then none
  else
    let mag : ℚ :=
      if expo = 0 then (mant : ℚ) / 2 ^ 149
      else (((2 ^ 23 + mant : Nat) : ℚ)) * ((2 : ℚ) ^ expo) / 2 ^ 150
    some (if sign = 1 then -mag else mag)

/-- `struct.unpack_from('<f', data, i)[0]` as an exact rational. -/
def decodeAt (data : List Nat) (i : Nat) : Option ℚ :=
  decodeF32 (byteAt data i) (byteAt data (i + 1))
    (byteAt data (i + 2)) (byteAt data (i + 3))

/-- Range test on a decoded float; `none` (NaN/inf) fails. -/
def inRangeOpt (lo hi : ℚ) : Option ℚ → Bool
  | some v => decide (lo ≤ v ∧ v ≤ hi)
  | none => false

/-- The candidate channel counts of the binary recovery search, in
iteration order. -/
def channelCounts : List Nat := [12, 16, 20, 24, 28, 32]

/-- The floats of row `j` of candidate layout `(off, n)`. -/
def rowVals (data : List Nat) (off n j : Nat) : List (Option ℚ) :=
  (List.range n).map (fun ch => decodeAt data (off + j * (n * 4) + ch * 4))

/-- One row passes validation when one of its first 4 floats is
RPM-plausible (0..8000) and one of its first 8 floats is
MAP-plausible (10..250). -/
def rowPlausible (data : List Nat) (off n j : Nat) : Bool :=
  ((rowVals data off n j).take 4).any (inRangeOpt 0 8000) &&
  ((rowVals data off n j).take 8).any (inRangeOpt 10 250)

/-- A `(start_offset, num_channels)` candidate is accepted when the
region holds at least 10 full rows and each of the first 10 rows
passes validation (the source's `rows_valid and len(test_rows) >= 5`
after a 10-iteration loop that aborts on the first implausible row). -/
def validCandidate (data : List Nat) (c : Nat × Nat) : Bool :=
  decide (c.1 + (c.2 * 4) * 10 ≤ data.length) &&
  (List.range 10).all (fun j => rowPlausible data c.1 c.2 j)

/-- The record decoded from row `rowIdx` of an accepted layout: the
first `n` catalog names (all 21 when `n` exceeds the catalog) paired
with the row's floats.  A NaN/inf float is stored by the source as
that native float; the model stores 0 for it (such values cannot occur
inside the ten validated rows). -/
def buildRecord (data : List Nat) (off n rowIdx : Nat) : Rec :=
  pyDict ((sniperChannelKeys.take n).enum.map
    (fun p => (p.2, (decodeAt data (off + rowIdx * (n * 4) + p.1 * 4)).getD 0)))

/-- The datalog assembled after a candidate is accepted: channel names
from the catalog, and every remaining full row decoded (the source's
per-row bounds `break` is equivalent to the `total_rows` count). -/
def buildDatalog (data : List Nat) (filepath : List Char) (c : Nat × Nat) :
    SniperDatalog :=
  { mkEmpty (basename filepath) with
    channels := sniperChannelKeys.take c.2,
    records := (List.range ((data.length - c.1) / (c.2 * 4))).map
      (fun rowIdx => buildRecord data c.1 c.2 rowIdx) }

/-- Inner loop of the layout search: try the channel counts at a fixed
offset, returning at the first accepted candidate with a nonempty
decode (an accepted candidate always decodes at least 10 rows, so the
nonempty check never fails). -/
def tryChannelCounts (data : List Nat) (filepath : List Char) (off : Nat) :
    List Nat → Option SniperDatalog
  | [] => none
  | n :: rest =>
      if validCandidate data (off, n) then
        let d := buildDatalog data filepath (off, n)
        if d.records.isEmpty then tryChannelCounts data filepath off rest
        else some d
      else tryChannelCounts data filepath off rest

/-- Outer loop of the layout search over start offsets. -/
def searchOffsets (data : List Nat) (filepath : List Char) :
    List Nat → Option SniperDatalog
  | [] => none
  | off :: rest =>
      match tryChannelCounts data filepath off channelCounts with
      | some d => some d
      | none => searchOffsets data filepath rest

/-- The offsets the source iterates: `range(64, min(len(data), 512))`. -/
def offsetRange (data : List Nat) : List Nat :=
  List.range' 64 (min data.length 512 - 64)

/-- Every `(offset, channel_count)` candidate of the search space in
its deterministic iteration order: offsets 64..511 ascending in the
outer loop, channel counts 12,16,20,24,28,32 in the inner loop. -/
def allCandidates : List (Nat × Nat) :=
  (List.range' 64 448).flatMap (fun off => channelCounts.map (fun n => (off, n)))

/-- Embeds `_parse_binary_datalog`.  (The channel assignment the
source leaves behind when an accepted candidate decodes zero records
is unreachable, since acceptance guarantees at least ten rows.) -/
def parse_binary_datalog (data : List Nat) (filepath : List Char) :
    SniperDatalog :=
  if data.length < 64 then mkEmpty (basename filepath)
  else
    match searchOffsets data filepath (offsetRange data) with
    | some d => d
    | none => mkEmpty (basename filepath)

/-- The aligned offsets scanned by `_extract_from_raw`:
`range(0, len(data) - 4, 4)`. -/
def scanOffsets (data : List Nat) : List Nat :=
  List.range' 0 ((data.length - 4 + 3) / 4) 4

/-- The filter `_extract_from_raw` applies at one offset: keep a
decoded float that is a number (`val == val`) strictly between −1000
and 10000. -/
def rawKeep (data : List Nat) (i : Nat) : Option ℚ :=
  match decodeAt data i with
  | some v => if -1000 < v ∧ v < 10000 then some v else none
  | none => none

/-- The `floats_found` list of `_extract_from_raw`. -/
def floatsFound (data : List Nat) : List ℚ :=
  (scanOffsets data).filterMap (rawKeep data)

/-- Embeds `_extract_from_raw`: no records, catalog channel names, and
summary metadata only when at least one plausible float was found. -/
def extract_from_raw (data : List Nat) (filepath : List Char) :
    SniperDatalog :=
  { mkEmpty (basename filepath) with
    channels := sniperChannelKeys,
    metadata :=
      if floatsFound data ≠ [] then
        [(str "raw_floats_found", (floatsFound data).length),
         (str "file_size_bytes", data.length)]
      else [] }

/-- The four little-endian bytes of the float 100.0. -/
def f32Bytes100 : List Nat := [0, 0, 200, 66]

/-- A 544-byte synthetic buffer: 64 zero header bytes followed by 120
copies of the float 100.0 — ten valid rows for the very first
candidate (offset 64, 12 channels). -/
def binWitnessData : List Nat :=
  List.replicate 64 0 ++ (List.replicate 120 f32Bytes100).flatten

/-- The whitespace characters `str.strip` removes (ASCII subset). -/
def isPyWhitespace (c : Char) : Bool :=
  c = ' ' ∨ c = '\t' ∨ c = '\n' ∨ c = '\r' ∨ c = '\x0b' ∨ c = '\x0c'

/-- Python `s.strip()`. -/
def pyStrip (s : List Char) : List Char :=
  ((s.dropWhile isPyWhitespace).reverse.dropWhile isPyWhitespace).reverse

/-- Python `s.strip('"')`. -/
def pyStripQuote (s : List Char) : List Char :=
  ((s.dropWhile (fun c => c = '"')).reverse.dropWhile
    (fun c => c = '"')).reverse

/-- ASCII lower-casing of one character (the embedding of `str.lower`
restricted to the ASCII range actually used by the column names). -/
def lowerChar (c : Char) : Char :=
  if 'A' ≤ c ∧ c ≤ 'Z' then Char.ofNat (c.toNat + 32) else c

/-- Python `s.lower()`. -/
def lowerStr (s : List Char) : List Char := s.map lowerChar

/-- Python `s.replace(a, b)` for single characters. -/
def replaceChar (a b : Char) (s : List Char) : List Char :=
  s.map (fun c => if c = a then b else c)

/-- Python `s.split(sep)` for a single-character separator (never
returns an empty list; splitting the empty string yields `[[]]`). -/
def splitOnChar (sep : Char) : List Char → List (List Char)
  | [] => [[]]
  | c :: rest =>
      if c = sep then [] :: splitOnChar sep rest
      else
        match splitOnChar sep rest with
        | [] => [[c]]
        | cur :: rs => (c :: cur) :: rs

/-- The `column_map` synonym table of `_parse_text_datalog`. -/
def columnMap : List (List Char × List Char) :=
  [(str "rpm", str "rpm"), (str "engine rpm", str "rpm"),
   (str "eng rpm", str "rpm"),
   (str "map", str "map_kpa"), (str "map kpa", str "map_kpa"),
   (str "manifold pressure", str "map_kpa"),
   (str "tps", str "tps_pct"), (str "tps %", str "tps_pct"),
   (str "throttle", str "tps_pct"),
   (str "clt", str "coolant_temp_f"), (str "coolant", str "coolant_temp_f"),
   (str "ect", str "coolant_temp_f"),
   (str "iat", str "iat_f"), (str "intake temp", str "iat_f"),
   (str "afr", str "afr"), (str "air fuel", str "afr"),
   (str "wbo2", str "afr"), (str "a/f", str "afr"),
   (str "target afr", str "target_afr"), (str "tgt afr", str "target_afr"),
   (str "fuel flow", str "fuel_flow_lbhr"), (str "fuel", str "fuel_flow_lbhr"),
   (str "pw", str "inj_pw_ms"), (str "pulse width", str "inj_pw_ms"),
   (str "injpw", str "inj_pw_ms"),
   (str "timing", str "ign_timing_deg"), (str "spark", str "ign_timing_deg"),
   (str "ign timing", str "ign_timing_deg"),
   (str "battery", str "battery_v"), (str "batt", str "battery_v"),
   (str "bat v", str "battery_v"),
   (str "cl comp", str "cl_comp_pct"), (str "clc", str "cl_comp_pct"),
   (str "learn", str "learn_pct"),
   (str "ae", str "ae_active"), (str "accel enrich", str "ae_active"),
   (str "iac", str "iac_counts"),
   (str "speed", str "vss_mph"), (str "vss", str "vss_mph"),
   (str "mph", str "vss_mph"),
   (str "fp", str "fuel_pressure_psi"), (str "fuel pres", str "fuel_pressure_psi"),
   (str "time", str "timestamp_ms")]

/-- The per-header-token mapping of `_parse_text_datalog`: lower-case,
strip, look up the synonym table, else normalise spaces to
underscores. -/
def mapColumn (col : List Char) : List Char :=
  let cl := pyStrip (lowerStr col)
  match columnMap.lookup cl with
  | some v => v
  | none => replaceChar ' ' '_' cl

/-- ASCII decimal digit test. -/
def isDigitChar (c : Char) : Bool := decide ('0' ≤ c ∧ c ≤ '9')

/-- Value of a digit string, most significant first. -/
def digitsVal (l : List Char) : Nat :=
  l.foldl (fun a c => 10 * a + (c.toNat - 48)) 0

/-- Optional sign prefix of a numeric literal. -/
def parseSign : List Char → ℤ × List Char
  | '+' :: t => (1, t)
  | '-' :: t => (-1, t)
  | t => (1, t)

/-- Exponent suffix of a float literal (`e`/`E` already consumed). -/
def parseExpPart (base : ℚ) (t : List Char) : Option ℚ :=
  let st := parseSign t
  if st.2 ≠ [] ∧ st.2.all isDigitChar then
    some (base * (10 : ℚ) ^ (st.1 * (digitsVal st.2 : ℤ)))
  else none

/-- Assemble a float literal from sign, integer digits, fraction
digits and the unconsumed tail (empty or an exponent). -/
def parseAfterMantissa (sgn : ℤ) (ip fp rest : List Char) : Option ℚ :=
  let base : ℚ :=
    (sgn : ℚ) * ((digitsVal ip : ℚ) * 10 ^ fp.length + (digitsVal fp : ℚ))
      / 10 ^ fp.length
  match rest with
  | [] => some base
  | 'e' :: t => parseExpPart base t
  | 'E' :: t => parseExpPart base t
  | _ => none

/-- Embeds Python's `float(...)` on the finite decimal and scientific
literals the datalog pipeline produces and consumes (the `inf`/`nan`
words and digit-group underscores accepted by Python are outside the
model); failure is `none`, which the row parser turns into 0.0. -/
def pyFloat (s : List Char) : Option ℚ :=
  let ss := parseSign s
  let ip := ss.2.takeWhile isDigitChar
  let s2 := ss.2.dropWhile isDigitChar
  match s2 with
  | '.' :: t =>
      let fp := t.takeWhile isDigitChar
      let s3 := t.dropWhile isDigitChar
      if ip = [] ∧ fp = [] then none
      else parseAfterMantissa ss.1 ip fp s3
  | _ =>
      if ip = [] then none
      else parseAfterMantissa ss.1 ip [] s2

/-- The numeric value stored for one field: `float(...)` with the
`except ValueError: 0.0` fallback. -/
def fieldValue (v : List Char) : ℚ :=
  match pyFloat (pyStripQuote (pyStrip v)) with
  | some x => x
  | none => 0

/-- Embeds `_parse_text_datalog`. -/
def parse_text_datalog (text : List Char) (filepath : List Char) :
    SniperDatalog :=
  let lines := splitOnChar '\n' (pyStrip text)
  match lines with
  | header :: line1 :: restLines =>
      let delimiter : Char := if (',') ∈ header then ',' else '\t'
      let mapped := ((splitOnChar delimiter header).map
        (fun c => pyStripQuote (pyStrip c))).map mapColumn
      let records := (line1 :: restLines).filterMap (fun line =>
        let values := splitOnChar delimiter line
        if values.length = mapped.length then
          some (pyDict (List.zip mapped (values.map fieldValue)))
        else none)
      { mkEmpty (basename filepath) with
        channels := mapped, records := records }
  | _ => mkEmpty (basename filepath)

/-- A UTF-8 continuation byte. -/
def contByte (b : Nat) : Bool := 128 ≤ b ∧ b ≤ 191

/-- Valid second byte for a three-byte lead (tighter windows for `E0`
and `ED`, which excludes overlong encodings and surrogates). -/
def cont3Ok (lead c : Nat) : Bool :=
  if lead = 224 then 160 ≤ c ∧ c ≤ 191
  else if lead = 237 then 128 ≤ c ∧ c ≤ 159
  else 128 ≤ c ∧ c ≤ 191

/-- Valid second byte for a four-byte lead (tighter windows for `F0`
and `F4`). -/
def cont4Ok (lead c : Nat) : Bool :=
  if lead = 240 then 144 ≤ c ∧ c ≤ 191
  else if lead = 244 then 128 ≤ c ∧ c ≤ 143
  else 128 ≤ c ∧ c ≤ 191

/-- Structural worker for the UTF-8 decoder.  The fuel argument is
the length of the remaining input, which bounds the recursion; every
call consumes at least one input byte while spending exactly one unit
of fuel, so the zero-fuel case is reached only on empty input. -/
def utf8Go : Nat → List Nat → List Char
  | 0, _ => []
  | _ + 1, [] => []
  | fuel + 1, b :: rest =>
      if b < 128 then Char.ofNat b :: utf8Go fuel rest
      else if 194 ≤ b ∧ b ≤ 223 then
        match rest with
        | c1 :: rest1 =>
            if contByte c1 then
              Char.ofNat ((b - 192) * 64 + (c1 - 128)) :: utf8Go fuel rest1
            else '\uFFFD' :: utf8Go fuel (c1 :: rest1)
        | [] => ['\uFFFD']
      else if 224 ≤ b ∧ b ≤ 239 then
        match rest with
        | c1 :: rest1 =>
            if cont3Ok b c1 then
              match rest1 with
              | c2 :: rest2 =>
                  if contByte c2 then
                    Char.ofNat ((b - 224) * 4096 + (c1 - 128) * 64 + (c2 - 128))
                      :: utf8Go fuel rest2
                  else '\uFFFD' :: utf8Go fuel (c2 :: rest2)
              | [] => ['\uFFFD']
            else '\uFFFD' :: utf8Go fuel (c1 :: rest1)
        | [] => ['\uFFFD']
      else if 240 ≤ b ∧ b ≤ 244 then
        match rest with
        | c1 :: rest1 =>
            if cont4Ok b c1 then
              match rest1 with
              | c2 :: rest2 =>
                  if contByte c2 then
                    match rest2 with
                    | c3 :: rest3 =>
                        if contByte c3 then
                          Char.ofNat ((b - 240) * 262144 + (c1 - 128) * 4096
                              + (c2 - 128) * 64 + (c3 - 128))
                            :: utf8Go fuel rest3
                        else '\uFFFD' :: utf8Go fuel (c3 :: rest3)
                    | [] => ['\uFFFD']
                  else '\uFFFD' :: utf8Go fuel (c2 :: rest2)
              | [] => ['\uFFFD']
            else '\uFFFD' :: utf8Go fuel (c1 :: rest1)
        | [] => ['\uFFFD']
      else '\uFFFD' :: utf8Go fuel rest

/-- Embeds `bytes.decode('utf-8', errors='replace')`: well-formed
sequences decode to their code point, a malformed lead or truncated
sequence becomes one U+FFFD for its maximal valid prefix, and decoding
resumes at the first byte that does not extend the sequence. -/
def decodeUtf8Replace (l : List Nat) : List Char :=
  utf8Go l.length l

/-- `filepath.lower().endswith('.dlz')`. -/
def endsWithDlzLower (p : List Char) : Bool :=
  (str ".dlz").isSuffixOf (lowerStr p)

/-- The diagnostic appended when neither structured parser produced
records. -/
def diagMsg (n : Nat) : List Char :=
  str "Could not fully parse proprietary DLZ format. File size: "
    ++ (toString n).data
    ++ str " bytes. For best results, export from Holley software as CSV."

/-- The body of `parse_dlz_file`'s `try` block after decompression:
text attempt, then binary attempt, then raw-extraction fallback
(`rawLen` is the pre-decompression byte count used by the final
diagnostic).  The source appends that diagnostic to the binary
parser's result and then rebinds the result variable to the
raw-extraction fallback, discarding the annotated object —
`_annotated` reproduces the lost update. -/
def parse_buffer (decompressed : List Nat) (rawLen : Nat)
    (filepath : List Char) : SniperDatalog :=
  let text_data := decodeUtf8Replace decompressed
  let textAttempt : Option SniperDatalog :=
    if (',') ∈ text_data.take 500 ∨ ('\t') ∈ text_data.take 500 then
      let d := parse_text_datalog text_data filepath
      if d.records ≠ [] then some d else none
    else none
  match textAttempt with
  | some d => d
  | none =>
      let d2 := parse_binary_datalog decompressed filepath
      if d2.records ≠ [] then d2
      else
        let _annotated := { d2 with
          parse_errors := d2.parse_errors ++ [diagMsg rawLen] }
        extract_from_raw decompressed filepath

/-- Embeds `parse_dlz_file`.  File reading is the `Except` argument
(`error` = the I/O exception message); the two zlib decompressors are
function parameters returning `none` on their `zlib.error`. -/
def parse_dlz_file
    (zlibDecompress rawDeflateDecompress : List Nat → Option (List Nat))
    (file : Except (List Char) (List Nat)) (filepath : List Char) :
    SniperDatalog :=
  match file with
  | .error e =>
      { mkEmpty (basename filepath) with
        parse_errors := [str "Error reading file: " ++ e] }
  | .ok raw_data =>
      let decompressed : List Nat :=
        if endsWithDlzLower filepath then
          match zlibDecompress raw_data with
          | some d => d
          | none =>
              match rawDeflateDecompress raw_data with
              | some d => d
              | none => raw_data
        else raw_data
      parse_buffer decompressed raw_data.length filepath

/-- Remove every factor `p` from `n` (fuel-structural; called with
`fuel = n`): returns the multiplicity and the remaining cofactor. -/
def stripP (p : Nat) : Nat → Nat → Nat × Nat
  | 0, n => (0, n)
  | fuel + 1, n =>
      if 2 ≤ p ∧ n % p = 0 ∧ n ≠ 0 then
        let r := stripP p fuel (n / p)
        (r.1 + 1, r.2)
      else (0, n)

/-- Decimal digits of `n`, most significant first (fuel-structural;
called with `fuel = n`). -/
def natDigitsGo : Nat → Nat → List Char
  | 0, _ => []
  | fuel + 1, n =>
      if n = 0 then []
      else natDigitsGo fuel (n / 10) ++ [Char.ofNat (n % 10 + 48)]

/-- Decimal digit string of a natural number. -/
def natToDigits (n : Nat) : List Char :=
  if n = 0 then ['0'] else natDigitsGo n n

/-- Left-pad a digit string with zeros to width `k`. -/
def padZeros (k : Nat) (s : List Char) : List Char :=
  List.replicate (k - s.length) '0' ++ s

/-- Decimal rendering of a rational whose reduced denominator is
`2^a * 5^b` — which every value produced by the text parser is.  This
embeds Python's `str(float)` for such values (an exact finite decimal
both ways); for other rationals, which the modelled pipeline never
produces, it falls back to "0". -/
def ratToDecStr (q : ℚ) : List Char :=
  let s2 := stripP 2 q.den q.den
  let s5 := stripP 5 s2.2 s2.2
  if s5.2 = 1 then
    let k := max (max s2.1 s5.1) 1
    let m := q.num.natAbs * (2 ^ (k - s2.1) * 5 ^ (k - s5.1))
    (if q.num < 0 then ['-'] else []) ++
      natToDigits (m / 10 ^ k) ++
      '.' :: padZeros k (natToDigits (m % 10 ^ k))
  else ['0']

/-- A field the csv writer must quote (the excel dialect's
QUOTE_MINIMAL: delimiter, quote char, CR or LF). -/
def csvNeedsQuote (f : List Char) : Bool :=
  f.any (fun c => c = ',' ∨ c = '"' ∨ c = '\r' ∨ c = '\n')

/-- One csv field as written: quoted with doubled quote chars when
needed, verbatim otherwise. -/
def csvQuoteField (f : List Char) : List Char :=
  if csvNeedsQuote f then
    '"' :: (f.flatMap (fun c => if c = '"' then ['"', '"'] else [c])) ++ ['"']
  else f

/-- One csv row: comma-joined quoted fields plus the excel dialect's
CRLF terminator. -/
def csvRow (fields : List (List Char)) : List Char :=
  List.intercalate [','] (fields.map csvQuoteField) ++ ['\r', '\n']

/-- Embeds `SniperDatalog.to_csv` as the text written to the file: a
header row of the channel names, then one row per record with the
fields in declared channel order (`DictWriter` with
`fieldnames=self.channels`); an empty datalog writes nothing.  The
per-field dict access `rec.data[name]` is modelled with the usual 0.0
default — for parser-built datalogs every channel is a key of every
record, so the default is never taken. -/
def to_csv (dl : SniperDatalog) : List Char :=
  if dl.records = [] then []
  else
    csvRow dl.channels ++
      (dl.records.map (fun r =>
        csvRow (dl.channels.map (fun ch => ratToDecStr (recGetD r ch 0))))).flatten

/-- Append a suffix to the last element of a nonempty list of strings
(the shape `splitOnChar` produces when a separator-free suffix trails
the last part). -/
def appendToLast (suffix : List Char) : List (List Char) → List (List Char)
  | [] => [suffix]
  | [x] => [x ++ suffix]
  | x :: xs => x :: appendToLast suffix xs

/-- Join line bodies with the excel dialect's CRLF terminators: the
exact byte layout `to_csv` writes, one `body ++ "\r\n"` per row. -/
def crlfJoin (bs : List (List Char)) : List Char :=
  (bs.map (fun b => b ++ ['\r', '\n'])).flatten

/-- The line list the text parser recovers from a stripped CRLF-joined
text: every line keeps its trailing '\r' except the last one, whose
CRLF was consumed by `strip()`. -/
def linesOf : List (List Char) → List (List Char)
  | [] => []
  | [b] => [b]
  | b :: b2 :: bs => (b ++ ['\r']) :: linesOf (b2 :: bs)

/-- The numeric field strings of one exported csv row, in declared
channel order. -/
def numFieldsOf (cs : List (List Char)) (r : Rec) : List (List Char) :=
  cs.map (fun ch => ratToDecStr (recGetD r ch 0))

/-- The body of one exported value row before its CRLF terminator. -/
def rowBodyOf (cs : List (List Char)) (r : Rec) : List Char :=
  List.intercalate [','] (numFieldsOf cs r)

/-- The record the text parser rebuilds from one exported row: the
original record's value under every declared channel. -/
def roundRec (cs : List (List Char)) (r : Rec) : Rec :=
  pyDict (cs.zip (cs.map (fun ch => recGetD r ch 0)))

/-- Throttle plausibility at an absolute record index: the predicate
the WOT scan tests on each record. -/
def wotP (records : List Rec) (thr : ℚ) (j : Nat) : Prop :=
  thr ≤ recGetD (records.getD j []) (str "tps_pct") 0

instance (records : List Rec) (thr : ℚ) (j : Nat) :
    Decidable (wotP records thr j) := by
  unfold wotP; infer_instance

/-- The properties every returned WOT segment enjoys. -/
def wotGoalP (records : List Rec) (thr : ℚ) (p : Nat × Nat) : Prop :=
  p.1 < p.2 ∧ p.2 < records.length ∧ 3 < streakLen records thr p.1

theorem takeWhile_length_eq {α : Type} (d : α) (p : α → Bool) :
    ∀ (l : List α) (k : Nat), k ≤ l.length →
    (∀ j, j < k → p (l.getD j d) = true) →
    (k < l.length → p (l.getD k d) = false) →
    (l.takeWhile p).length = k := by
  intro l
  induction l with
  | nil =>
    intro k hk _ _
    have : k = 0 := by simpa using hk
    subst this
    simp
  | cons a t ih =>
    intro k hk h1 h2
    cases k with
    | zero =>
      have ha : p a = false := by simpa using h2 (by simp)
      simp [List.takeWhile_cons, ha]
    | succ k' =>
      have ha : p a = true := by simpa using h1 0 (Nat.succ_pos _)
      rw [List.takeWhile_cons, if_pos ha]
      simp only [List.length_cons, Nat.succ_eq_add_one, Nat.add_left_inj]
      exact ih k' (by simpa using hk)
        (fun j hj => by simpa using h1 (j + 1) (by omega))
        (fun hk2 => by simpa using h2 (by simpa using hk2))

theorem getD_of_drop_cons {α : Type} {l : List α} {d : α} {i : Nat} {r : α}
    {rest : List α} (h : r :: rest = l.drop i) :
    i < l.length ∧ l.getD i d = r ∧ rest = l.drop (i + 1) := by
  have hlen : i < l.length := by
    have := congrArg List.length h
    simp only [List.length_cons, List.length_drop] at this
    omega
  refine ⟨hlen, ?_, ?_⟩
  · have hopt : l[i]? = some r := by rw [← List.head?_drop, ← h]; rfl
    rw [List.getElem?_eq_getElem hlen] at hopt
    rw [List.getD_eq_getElem l d hlen]
    exact Option.some.inj hopt
  · have : (l.drop i).drop 1 = l.drop (i + 1) := List.drop_drop 1 i l
    rw [← this, ← h]
    simp

theorem streakLen_eq (records : List Rec) (thr : ℚ) (s k : Nat)
    (h1 : s + k ≤ records.length)
    (hall : ∀ j, j < k → wotP records thr (s + j))
    (hstop : s + k < records.length → ¬ wotP records thr (s + k)) :
    streakLen records thr s = k := by
  have hgd : ∀ j, s + j < records.length →
      (records.drop s).getD j ([] : Rec) = records.getD (s + j) [] := by
    intro j hj
    rw [List.getD_eq_getElem _ _ (by simp [List.length_drop]; omega),
        List.getD_eq_getElem _ _ hj]
    exact List.getElem_drop records
  apply takeWhile_length_eq ([] : Rec)
  · simp only [List.length_drop]; omega
  · intro j hj
    rw [hgd j (by omega)]
    exact decide_eq_true (hall j hj)
  · intro hk2
    simp only [List.length_drop] at hk2
    rw [hgd k (by omega)]
    exact decide_eq_false (hstop (by omega))

theorem wotGo_invariant (records : List Rec) (thr : ℚ) :
    ∀ (rs : List Rec) (i : Nat) (w : Bool) (start : Nat)
      (acc : List (Nat × Nat)),
    rs = records.drop i →
    (w = true → start ≤ i ∧ ∀ j, start ≤ j → j < i → wotP records thr j) →
    (w = true → ∀ p ∈ acc, p.2 < start) →
    (w = false → ∀ p ∈ acc, p.2 < i) →
    (∀ p ∈ acc, wotGoalP records thr p) →
    List.Chain' (fun p q => p.2 < q.1) acc →
    (∀ p ∈ wotGo records.length thr rs i w start acc,
        wotGoalP records thr p) ∧
    List.Chain' (fun p q => p.2 < q.1)
      (wotGo records.length thr rs i w start acc) := by
  intro rs
  induction rs with
  | nil =>
    intro i w start acc hdrop hw _hwt _hwf hgoal hchain
    have hin : records.length ≤ i := by
      rw [List.drop_eq_nil_iff.symm, ← hdrop]
    rw [wotGo]
    split
    · rename_i hc
      obtain ⟨hwtrue, hgt⟩ := hc
      obtain ⟨hsi, hall⟩ := hw hwtrue
      have hsn : start < records.length := by omega
      have hstreak : streakLen records thr start = records.length - start := by
        apply streakLen_eq
        · omega
        · intro j hj
          exact hall (start + j) (by omega) (by omega)
        · omega
      constructor
      · intro p hp
        rcases List.mem_append.mp hp with h | h
        · exact hgoal p h
        · simp only [List.mem_singleton] at h
          subst h
          exact ⟨by omega, by omega, by rw [hstreak]; omega⟩
      · rw [List.chain'_append]
        refine ⟨hchain, List.chain'_singleton _, ?_⟩
        intro x hx y hy
        simp only [List.head?_cons, Option.mem_def, Option.some.injEq] at hy
        subst hy
        exact lt_of_lt_of_le
          (_hwt hwtrue x (List.mem_of_mem_getLast? hx)) (le_refl _)
    · exact ⟨hgoal, hchain⟩
  | cons r rest ih =>
    intro i w start acc hdrop hw hwt hwf hgoal hchain
    obtain ⟨hin, hget, hrest⟩ :=
      getD_of_drop_cons (d := ([] : Rec)) hdrop
    simp only [wotGo]
    by_cases c1 : thr ≤ recGetD r (str "tps_pct") 0 ∧ ¬ (w = true)
    · rw [if_pos c1]
      apply ih (i + 1) true i acc hrest
      · intro _
        refine ⟨Nat.le_succ i, ?_⟩
        intro j hj1 hj2
        have : j = i := by omega
        subst this
        unfold wotP
        rw [hget]
        exact c1.1
      · intro _
        have hwfalse : w = false := by
          cases w
          · rfl
          · exact absurd rfl c1.2
        exact fun p hp => hwf hwfalse p hp
      · intro h; cases h
      · exact hgoal
      · exact hchain
    · rw [if_neg c1]
      by_cases c2 : recGetD r (str "tps_pct") 0 < thr ∧ w = true
      · rw [if_pos c2]
        obtain ⟨hsi, hall⟩ := hw c2.2
        have hacc : ∀ p ∈ acc, p.2 < start := hwt c2.2
        have hnotP : ¬ wotP records thr i := by
          unfold wotP
          rw [hget]
          exact not_le.mpr c2.1
        set acc2 := if i - start > 3 then acc ++ [(start, i)] else acc with hacc2
        have hgoal2 : ∀ p ∈ acc2, wotGoalP records thr p := by
          rw [hacc2]
          split
          · rename_i hlong
            intro p hp
            rcases List.mem_append.mp hp with h | h
            · exact hgoal p h
            · simp only [List.mem_singleton] at h
              subst h
              refine ⟨by omega, hin, ?_⟩
              show 3 < streakLen records thr start
              have : streakLen records thr start = i - start := by
                apply streakLen_eq
                · omega
                · intro j hj
                  exact hall (start + j) (by omega) (by omega)
                · intro _
                  have : start + (i - start) = i := by omega
                  rw [this]
                  exact hnotP
              omega
          · exact hgoal
        have hchain2 : List.Chain' (fun p q => p.2 < q.1) acc2 := by
          rw [hacc2]
          split
          · rw [List.chain'_append]
            refine ⟨hchain, List.chain'_singleton _, ?_⟩
            intro x hx y hy
            simp only [List.head?_cons, Option.mem_def, Option.some.injEq] at hy
            subst hy
            exact hacc x (List.mem_of_mem_getLast? hx)
          · exact hchain
        have hbound2 : ∀ p ∈ acc2, p.2 < i + 1 := by
          rw [hacc2]
          split
          · intro p hp
            rcases List.mem_append.mp hp with h | h
            · have := hacc p h; omega
            · simp only [List.mem_singleton] at h
              subst h
              omega
          · intro p hp
            have := hacc p hp; omega
        apply ih (i + 1) false start acc2 hrest
        · intro h; cases h
        · intro h; cases h
        · intro _; exact hbound2
        · exact hgoal2
        · exact hchain2
      · rw [if_neg c2]
        apply ih (i + 1) w start acc hrest
        · intro hwtrue
          obtain ⟨hsi, hall⟩ := hw hwtrue
          refine ⟨by omega, ?_⟩
          intro j hj1 hj2
          rcases Nat.lt_or_ge j i with h | h
          · exact hall j hj1 h
          · have : j = i := by omega
            subst this
            unfold wotP
            rw [hget]
            by_contra hcon
            exact c2 ⟨not_le.mp hcon, hwtrue⟩
        · exact hwt
        · intro hwfalse
          intro p hp
          have := hwf hwfalse p hp
          omega
        · exact hgoal
        · exact hchain

theorem aeGo_invariant (recs : List Rec) :
    ∀ (rs : List Rec) (i : Nat) (active : Bool) (start : Nat)
      (acc : List AeEvent),
    rs = recs.drop i →
    (active = true → start < i) →
    (∀ e ∈ acc, aeGoalP recs e) →
    ∀ e ∈ aeGo recs rs i active start acc, aeGoalP recs e := by
  intro rs
  induction rs with
  | nil =>
    intro i active start acc _ _ hgoal
    rw [aeGo]
    exact hgoal
  | cons r rest ih =>
    intro i active start acc hdrop hst hgoal
    obtain ⟨hin, hget, hrest⟩ := getD_of_drop_cons (d := ([] : Rec)) hdrop
    simp only [aeGo]
    by_cases c1 : aeTruthy r = true ∧ ¬ active = true
    · rw [if_pos c1]
      exact ih (i + 1) true i acc hrest (fun _ => Nat.lt_succ_self i) hgoal
    · rw [if_neg c1]
      by_cases c2 : ¬ aeTruthy r = true ∧ active = true
      · rw [if_pos c2]
        apply ih (i + 1) false start (acc ++ [mkAeEvent recs start i]) hrest
        · intro h; cases h
        · intro e he
          rcases List.mem_append.mp he with h | h
          · exact hgoal e h
          · simp only [List.mem_singleton] at h
            subst h
            have hsi : start < i := hst c2.2
            refine ⟨hsi, hin, ?_, ?_⟩
            · show aeTruthy (recs.getD i []) = false
              rw [hget]
              exact Bool.not_eq_true _ ▸ c2.1
            · apply List.ne_nil_of_length_pos
              simp only [mkAeEvent, List.length_map, List.length_range']
              omega
      · rw [if_neg c2]
        apply ih (i + 1) active start acc hrest
        · intro h
          have := hst h
          omega
        · exact hgoal

theorem aeClassify_foldl (evs : List AeEvent) :
    ∀ l0 r0 : Nat,
    evs.foldl
      (fun lr e =>
        let avg := aeAvg e.afr_during
        if avg > 14 then (lr.1 + 1, lr.2)
        else if avg < 23/2 then (lr.1, lr.2 + 1)
        else lr)
      (l0, r0)
    = (l0 + evs.countP (fun e => decide (aeAvg e.afr_during > 14)),
       r0 + evs.countP (fun e => decide (aeAvg e.afr_during < 23/2))) := by
  induction evs with
  | nil => intro l0 r0; simp
  | cons e t ih =>
    intro l0 r0
    simp only [List.foldl_cons, List.countP_cons]
    by_cases h1 : aeAvg e.afr_during > 14
    · have h2 : ¬ aeAvg e.afr_during < 23/2 := by
        intro hcon
        have : (23 : ℚ)/2 < 14 := by norm_num
        exact absurd (lt_trans hcon this) (not_lt.mpr (le_of_lt h1))
      simp only [if_pos h1, ih]
      simp [h1, h2]
      omega
    · by_cases h2 : aeAvg e.afr_during < 23/2
      · simp only [if_neg h1, if_pos h2, ih]
        simp [h1, h2]
        omega
      · simp only [if_neg h1, if_neg h2, ih]
        simp [h1, h2]

theorem aeClassify_eq (evs : List AeEvent) :
    aeClassify evs
      = (evs.countP (fun e => decide (aeAvg e.afr_during > 14)),
         evs.countP (fun e => decide (aeAvg e.afr_during < 23/2))) := by
  unfold aeClassify
  rw [aeClassify_foldl]
  simp

/-- **C4**: every WOT segment returned by `get_wot_runs` marks a run of
strictly more than 3 above-threshold samples (also when the run is
still open at end-of-data), the segments are pairwise non-overlapping
and listed in ascending start order (each segment's second component is
strictly below the next segment's start), and the throttle sequence
`[2,3,90,92,95,91,4,3]` at threshold 85 yields exactly the single
segment `(2, 6)`, covering indices 2 through 5 inclusive (a 4-sample
run). -/
theorem wot_segment_invariant :
    (∀ (records : List Rec) (thr : ℚ) (p : Nat × Nat),
        p ∈ get_wot_runs records thr →
        p.1 < p.2 ∧ p.2 < records.length ∧ 3 < streakLen records thr p.1) ∧
    (∀ (records : List Rec) (thr : ℚ),
        List.Chain' (fun p q => p.2 < q.1) (get_wot_runs records thr)) ∧
    get_wot_runs wotExampleRecords 85 = [(2, 6)] ∧
    streakLen wotExampleRecords 85 2 = 4 := by
  have main : ∀ (records : List Rec) (thr : ℚ),
      (∀ p ∈ get_wot_runs records thr, wotGoalP records thr p) ∧
      List.Chain' (fun p q => p.2 < q.1) (get_wot_runs records thr) := by
    intro records thr
    unfold get_wot_runs
    apply wotGo_invariant records thr records 0 false 0 []
    · simp
    · intro h; cases h
    · intro h; cases h
    · intro _ p hp; cases hp
    · intro p hp; cases hp
    · exact List.chain'_nil
  refine ⟨?_, ?_, by decide, by decide⟩
  · intro records thr p hp
    exact (main records thr).1 p hp
  · intro records thr
    exact (main records thr).2

/-- Witness for C4 at the concrete throttle sequence. -/
theorem wot_segment_invariant_witness :
    (2, 6) ∈ get_wot_runs wotExampleRecords 85 ∧
    (2 < 6 ∧ 6 < wotExampleRecords.length ∧
      3 < streakLen wotExampleRecords 85 2) :=
  ⟨by decide, wot_segment_invariant.1 wotExampleRecords 85 (2, 6) (by decide)⟩

/-- **C5**: a channel absent from a record resolves to the 0.0 default
when the record is queried with that default, and the channel-data
accessor exposes exactly that 0.0 for the record. -/
theorem missing_channel_default (dl : SniperDatalog) (ch : List Char)
    (r : Rec) (hr : r ∈ dl.records) (h : recGet r ch = none) :
    recGetD r ch 0 = 0 ∧ (0 : ℚ) ∈ get_channel_data dl ch := by
  have h0 : recGetD r ch 0 = 0 := by
    unfold recGetD
    unfold recGet at h
    rw [h]
  refine ⟨h0, ?_⟩
  unfold get_channel_data
  have hmem := List.mem_map_of_mem (fun r => recGetD r ch 0) hr
  simp only at hmem
  rwa [h0] at hmem

/-- Witness for C5: looking up `afr` on a record carrying only `rpm`. -/
theorem missing_channel_default_witness :
    recGet [(str "rpm", 5)] (str "afr") = none ∧
    (recGetD [(str "rpm", 5)] (str "afr") 0 = 0 ∧
      (0 : ℚ) ∈ get_channel_data exampleDatalog (str "afr")) :=
  ⟨by decide,
   missing_channel_default exampleDatalog (str "afr") [(str "rpm", 5)]
     (by decide) (by decide)⟩

/-- C7 counterexample: the classification loop applied to an event
with an empty captured trace counts it as *lean* (the 14.7 default
exceeds the strict 14.0 bound), not as neutral, refuting the claim that
an empty captured trace is classified neutral. -/
theorem ae_empty_trace_counterexample :
    aeAvg [] = 147/10 ∧
    aeClassify [⟨0, 1, 1, 0, []⟩] = (1, 0) := by
  have h : aeAvg ([] : List ℚ) > 14 := by
    simp only [aeAvg, if_pos rfl]
    norm_num
  constructor
  · simp [aeAvg]
  · simp [aeClassify, h]

/-- **C7 (amended)**: an event is counted lean exactly when the mean
measured ratio of its captured trace strictly exceeds 14.0 and rich
exactly when it is strictly below 11.5 (so a mean of exactly 14.0 is
neither); an empty trace defaults the mean to 14.7 without division —
which the strict bound would classify lean, not neutral — but every
event the analysis produces has a nonempty captured trace. -/
theorem ae_classification_boundary :
    (∀ recs : List Rec,
        (analyze_acceleration_enrichment recs).lean_ae_events
          = (aeEventsList recs).countP
              (fun e => decide (aeAvg e.afr_during > 14)) ∧
        (analyze_acceleration_enrichment recs).rich_ae_events
          = (aeEventsList recs).countP
              (fun e => decide (aeAvg e.afr_during < 23/2))) ∧
    (∀ l : List ℚ, aeAvg l = 14 →
        ¬ (aeAvg l > 14) ∧ ¬ (aeAvg l < 23/2)) ∧
    aeAvg [] = 147/10 ∧
    (∀ recs : List Rec, ∀ e ∈ aeEventsList recs, e.afr_during ≠ []) := by
  refine ⟨?_, ?_, by simp [aeAvg], ?_⟩
  · intro recs
    show (aeClassify (aeEventsList recs)).1 = _ ∧
      (aeClassify (aeEventsList recs)).2 = _
    rw [aeClassify_eq]
    exact ⟨rfl, rfl⟩
  · intro l hl
    rw [hl]
    constructor
    · exact lt_irrefl _
    · intro hcon
      norm_num at hcon
  · intro recs e he
    have := aeGo_invariant recs recs 0 false 0 [] (by simp)
      (fun h => by cases h) (fun e h => by cases h) e he
    exact this.2.2.2

/-- Witness for C7: a singleton trace with mean exactly 14 is neither
lean nor rich, and the single event of a one-pulse log has a nonempty
captured trace. -/
theorem ae_classification_boundary_witness :
    (¬ (aeAvg [14] > 14) ∧ ¬ (aeAvg [14] < 23/2)) ∧
    (mkAeEvent [aeOnRecord, aeOffRecord] 0 1).afr_during ≠ [] :=
  ⟨ae_classification_boundary.2.1 [14] (by norm_num [aeAvg]),
   ae_classification_boundary.2.2.2 [aeOnRecord, aeOffRecord]
     (mkAeEvent [aeOnRecord, aeOffRecord] 0 1) (by decide)⟩

/-- **C9**: the AE analysis counts exactly the falling-edge events —
every reported event ends strictly before end-of-data at a record whose
flag is clear, so a rising edge still open at the final record yields
no event and is absent from the total; five all-on records produce zero
AE events, while (by contrast) five wide-open-throttle records produce
the retained open run `(0, 4)`. -/
theorem ae_open_event_discarded :
    (∀ recs : List Rec,
        (analyze_acceleration_enrichment recs).total_ae_events
          = (aeEventsList recs).length) ∧
    (∀ recs : List Rec, ∀ e ∈ aeEventsList recs,
        e.stop < recs.length ∧ aeTruthy (recs.getD e.stop []) = false) ∧
    aeEventsList aeAllOnRecords = [] ∧
    (analyze_acceleration_enrichment aeAllOnRecords).total_ae_events = 0 ∧
    (analyze_acceleration_enrichment aeAllOnRecords).ae_events = [] ∧
    get_wot_runs wotOpenRecords 85 = [(0, 4)] := by
  refine ⟨fun recs => rfl, ?_, by decide, by decide, by decide, by decide⟩
  intro recs e he
  have := aeGo_invariant recs recs 0 false 0 [] (by simp)
    (fun h => by cases h) (fun e h => by cases h) e he
  exact ⟨this.2.1, this.2.2.1⟩

/-- Witness for C9 at a one-pulse log. -/
theorem ae_open_event_discarded_witness :
    (mkAeEvent [aeOnRecord, aeOffRecord] 0 1).stop
        < ([aeOnRecord, aeOffRecord] : List Rec).length ∧
    aeTruthy (([aeOnRecord, aeOffRecord] : List Rec).getD
        (mkAeEvent [aeOnRecord, aeOffRecord] 0 1).stop []) = false :=
  ae_open_event_discarded.2.1 [aeOnRecord, aeOffRecord]
    (mkAeEvent [aeOnRecord, aeOffRecord] 0 1) (by decide)

/-- **C10**: `total_ae_events` counts every detected AE event while the
`ae_events` detail list is the 20-element prefix of the full event
list; with more than 20 events the detail list is strictly shorter than
the total. -/
theorem ae_display_cap (recs : List Rec) :
    (analyze_acceleration_enrichment recs).total_ae_events
      = (aeEventsList recs).length ∧
    (analyze_acceleration_enrichment recs).ae_events
      = (aeEventsList recs).take 20 ∧
    (20 < (analyze_acceleration_enrichment recs).total_ae_events →
      (analyze_acceleration_enrichment recs).ae_events.length
        < (analyze_acceleration_enrichment recs).total_ae_events) := by
  refine ⟨rfl, rfl, ?_⟩
  intro h
  show ((aeEventsList recs).take 20).length < (aeEventsList recs).length
  rw [List.length_take]
  have h' : 20 < (aeEventsList recs).length := h
  omega

/-- Witness for C10 at a 21-pulse log. -/
theorem ae_display_cap_witness :
    20 < (analyze_acceleration_enrichment aeAltRecords).total_ae_events ∧
    (analyze_acceleration_enrichment aeAltRecords).ae_events.length
      < (analyze_acceleration_enrichment aeAltRecords).total_ae_events :=
  ⟨by decide, (ae_display_cap aeAltRecords).2.2 (by decide)⟩

theorem validCandidate_bounds {data : List Nat} {off n : Nat}
    (h : validCandidate data (off, n) = true) :
    0 < n ∧ off + n * 40 ≤ data.length := by
  unfold validCandidate at h
  rw [Bool.and_eq_true] at h
  obtain ⟨h1, h2⟩ := h
  have hroom : off + n * 4 * 10 ≤ data.length := by
    simpa using of_decide_eq_true h1
  have hrow := (List.all_eq_true.mp h2) 0 (by simp)
  have hn : 0 < n := by
    by_contra hcon
    have hn0 : n = 0 := by omega
    subst hn0
    unfold rowPlausible rowVals at hrow
    simp at hrow
  exact ⟨hn, by omega⟩

theorem buildDatalog_records_ne_nil {data : List Nat} {off n : Nat}
    (filepath : List Char) (h : validCandidate data (off, n) = true) :
    (buildDatalog data filepath (off, n)).records ≠ [] := by
  obtain ⟨hn, hroom⟩ := validCandidate_bounds h
  unfold buildDatalog
  simp only [ne_eq, List.map_eq_nil_iff, List.range_eq_nil]
  have h10 : 10 ≤ (data.length - off) / (n * 4) := by
    rw [Nat.le_div_iff_mul_le (by omega)]
    omega
  omega

theorem tryChannelCounts_eq (data : List Nat) (filepath : List Char)
    (off : Nat) :
    ∀ cs : List Nat,
    tryChannelCounts data filepath off cs
      = ((cs.map (fun n => (off, n))).find?
          (validCandidate data)).map (buildDatalog data filepath) := by
  intro cs
  induction cs with
  | nil => rfl
  | cons n rest ih =>
    simp only [tryChannelCounts, List.map_cons, List.find?_cons]
    by_cases h : validCandidate data (off, n) = true
    · rw [if_pos h, h]
      have hne := buildDatalog_records_ne_nil filepath h
      rw [if_neg (by simpa [List.isEmpty_iff] using hne)]
      rfl
    · rw [if_neg h, Bool.eq_false_iff.mpr h]
      exact ih

theorem searchOffsets_eq (data : List Nat) (filepath : List Char) :
    ∀ offs : List Nat,
    searchOffsets data filepath offs
      = ((offs.flatMap
            (fun off => channelCounts.map (fun n => (off, n)))).find?
          (validCandidate data)).map (buildDatalog data filepath) := by
  intro offs
  induction offs with
  | nil => rfl
  | cons off rest ih =>
    simp only [searchOffsets, List.flatMap_cons, List.find?_append]
    rw [tryChannelCounts_eq]
    cases hfind : (channelCounts.map (fun n => (off, n))).find?
        (validCandidate data) with
    | none =>
      simp only [Option.map_none']
      exact ih
    | some c => rfl

theorem find?_first_decomp {α : Type} (p : α → Bool) :
    ∀ (l : List α) (c : α), l.find? p = some c →
    p c = true ∧ ∃ l1 l2, l = l1 ++ c :: l2 ∧ ∀ x ∈ l1, p x = false := by
  intro l
  induction l with
  | nil => intro c h; cases h
  | cons a t ih =>
    intro c h
    rw [List.find?_cons] at h
    by_cases ha : p a = true
    · rw [ha] at h
      simp only [Option.some.injEq] at h
      subst h
      exact ⟨ha, [], t, rfl, by intro x hx; cases hx⟩
    · rw [Bool.eq_false_iff.mpr ha] at h
      obtain ⟨hc, l1, l2, hdec, hall⟩ := ih c h
      refine ⟨hc, a :: l1, l2, by rw [hdec]; rfl, ?_⟩
      intro x hx
      rcases List.mem_cons.mp hx with h1 | h1
      · subst h1; exact Bool.eq_false_iff.mpr ha
      · exact hall x h1

theorem allCandidates_split (data : List Nat) :
    allCandidates
      = (offsetRange data).flatMap
          (fun off => channelCounts.map (fun n => (off, n)))
        ++ (List.range' (64 + (min data.length 512 - 64))
              (448 - (min data.length 512 - 64))).flatMap
            (fun off => channelCounts.map (fun n => (off, n))) := by
  unfold allCandidates offsetRange
  rw [← List.flatMap_append]
  congr 1
  have hk : min data.length 512 - 64 ≤ 448 := by omega
  have := List.range'_append 64 (min data.length 512 - 64)
    (448 - (min data.length 512 - 64)) 1
  rw [Nat.one_mul] at this
  rw [this]
  congr 1
  omega

theorem tail_candidates_invalid (data : List Nat) {c : Nat × Nat}
    (hc : c ∈ (List.range' (64 + (min data.length 512 - 64))
        (448 - (min data.length 512 - 64))).flatMap
      (fun off => channelCounts.map (fun n => (off, n)))) :
    validCandidate data c = false := by
  rw [List.mem_flatMap] at hc
  obtain ⟨off, hoff, hmem⟩ := hc
  rw [List.mem_range'] at hoff
  obtain ⟨i, hi, hoffeq⟩ := hoff
  rw [List.mem_map] at hmem
  obtain ⟨n, _, hceq⟩ := hmem
  subst hceq
  by_contra hcon
  rw [Bool.not_eq_false] at hcon
  obtain ⟨hn, hroom⟩ := validCandidate_bounds hcon
  omega

/-- **C3**: for every byte buffer the binary recovery parser's result
is determined by the *first* `(offset, channel_count)` candidate — in
the fixed order of `allCandidates`: offsets 64..511 ascending outer,
channel counts 12,16,20,24,28,32 inner — whose region holds at least
10 full rows all of which pass the RPM/MAP plausibility test; whenever
a candidate is selected, every candidate strictly earlier in that
order fails validation, so no later also-valid candidate is ever
selected. -/
theorem binary_first_candidate (data : List Nat) (filepath : List Char) :
    (parse_binary_datalog data filepath
      = match allCandidates.find? (validCandidate data) with
        | some c => buildDatalog data filepath c
        | none => mkEmpty (basename filepath)) ∧
    (∀ c, allCandidates.find? (validCandidate data) = some c →
      validCandidate data c = true ∧
      ∃ l1 l2, allCandidates = l1 ++ c :: l2 ∧
        ∀ c2 ∈ l1, validCandidate data c2 = false) := by
  constructor
  · unfold parse_binary_datalog
    by_cases hlen : data.length < 64
    · rw [if_pos hlen]
      have hnone : allCandidates.find? (validCandidate data) = none := by
        rw [List.find?_eq_none]
        intro c hc
        unfold allCandidates at hc
        rw [List.mem_flatMap] at hc
        obtain ⟨off, hoff, hmem⟩ := hc
        rw [List.mem_range'] at hoff
        obtain ⟨i, hi, hoffeq⟩ := hoff
        rw [List.mem_map] at hmem
        obtain ⟨n, _, hceq⟩ := hmem
        subst hceq
        intro hcon
        obtain ⟨hn, hroom⟩ := validCandidate_bounds hcon
        omega
      rw [hnone]
    · rw [if_neg hlen]
      rw [searchOffsets_eq]
      rw [allCandidates_split data, List.find?_append]
      cases hfind : ((offsetRange data).flatMap
          (fun off => channelCounts.map (fun n => (off, n)))).find?
            (validCandidate data) with
      | some c => rfl
      | none =>
        have htail : (((List.range' (64 + (min data.length 512 - 64))
            (448 - (min data.length 512 - 64))).flatMap
              (fun off => channelCounts.map (fun n => (off, n)))).find?
                (validCandidate data)) = none := by
          rw [List.find?_eq_none]
          intro c hc
          rw [tail_candidates_invalid data hc]
          simp
        rw [htail]
        rfl
  · intro c hc
    exact find?_first_decomp (validCandidate data) allCandidates c hc

set_option maxRecDepth 8000 in
/-- Witness for C3: on the synthetic buffer the first candidate of
the whole search order, offset 64 with 12 channels, is the one
selected, and the first-match decomposition degenerates to an empty
earlier segment. -/
theorem binary_first_candidate_witness :
    validCandidate binWitnessData (64, 12) = true ∧
    (∃ l1 l2, allCandidates = l1 ++ (64, 12) :: l2 ∧
      ∀ c2 ∈ l1, validCandidate binWitnessData c2 = false) :=
  (binary_first_candidate binWitnessData []).2 (64, 12)
    (by with_unfolding_all decide)

theorem rawKeep_eq_some {data : List Nat} {i : Nat} {v : ℚ} :
    rawKeep data i = some v ↔
      (decodeAt data i = some v ∧ -1000 < v ∧ v < 10000) := by
  unfold rawKeep
  cases h : decodeAt data i with
  | none => simp
  | some w =>
    show (if -1000 < w ∧ w < 10000 then some w else none) = some v ↔ _
    by_cases hr : -1000 < w ∧ w < 10000
    · rw [if_pos hr]
      constructor
      · intro h2
        have hw : w = v := Option.some.inj h2
        subst hw
        exact ⟨rfl, hr⟩
      · intro h2
        have hw : w = v := Option.some.inj h2.1
        subst hw
        rfl
    · rw [if_neg hr]
      constructor
      · intro h2; cases h2
      · intro h2
        have hw : w = v := Option.some.inj h2.1
        subst hw
        exact absurd h2.2 hr

set_option maxRecDepth 8000 in
/-- C8 counterexample: a 4-byte buffer holding exactly the float 100.0
at its only aligned offset.  That offset carries a finite, in-range
float, yet the raw-extraction scan decodes nothing (the loop bound
`range(0, len(data) - 4, 4)` excludes the final aligned float), and
the result's channel list is populated with the full catalog rather
than left unconstructed. -/
theorem raw_scan_counterexample :
    decodeAt f32Bytes100 0 = some 100 ∧
    ((-1000 : ℚ) < 100 ∧ (100 : ℚ) < 10000) ∧
    floatsFound f32Bytes100 = [] ∧
    (extract_from_raw f32Bytes100 []).metadata = [] ∧
    (extract_from_raw f32Bytes100 []).channels = sniperChannelKeys := by
  exact ⟨by with_unfolding_all decide, by norm_num, by decide, by decide, rfl⟩

/-- **C8 (amended)**: the raw-extraction fallback scans exactly the
4-byte-aligned offsets strictly below `len − 4` (so the final aligned
float of the buffer is never decoded), keeps exactly the floats that
decode to a number strictly between −1000 and 10000, constructs no
records, sets the channel list to the fixed catalog, reports summary
metadata (count and file size) only when at least one float was kept,
and never reports an error — zero matches included. -/
theorem raw_extraction_scan (data : List Nat) (filepath : List Char) :
    (extract_from_raw data filepath).records = [] ∧
    (extract_from_raw data filepath).channels = sniperChannelKeys ∧
    (extract_from_raw data filepath).parse_errors = [] ∧
    (∀ i : Nat, i ∈ scanOffsets data ↔ (i % 4 = 0 ∧ i + 4 < data.length)) ∧
    (∀ v : ℚ, v ∈ floatsFound data ↔
      ∃ i, i ∈ scanOffsets data ∧ decodeAt data i = some v ∧
        -1000 < v ∧ v < 10000) ∧
    (extract_from_raw data filepath).metadata
      = (if floatsFound data ≠ [] then
          [(str "raw_floats_found", (floatsFound data).length),
           (str "file_size_bytes", data.length)]
        else []) := by
  refine ⟨rfl, rfl, rfl, ?_, ?_, rfl⟩
  · intro i
    unfold scanOffsets
    rw [List.mem_range']
    constructor
    · rintro ⟨k, hk, rfl⟩
      omega
    · rintro ⟨h4, hlt⟩
      exact ⟨i / 4, by omega, by omega⟩
  · intro v
    unfold floatsFound
    rw [List.mem_filterMap]
    constructor
    · rintro ⟨i, hi, hkeep⟩
      exact ⟨i, hi, rawKeep_eq_some.mp hkeep⟩
    · rintro ⟨i, hi, hdec, hlo, hhi⟩
      exact ⟨i, hi, rawKeep_eq_some.mpr ⟨hdec, hlo, hhi⟩⟩

set_option maxRecDepth 8000 in
/-- C1 (code bug): a 100-byte all-zero `.dl` file yields zero records
from both the text parser and the binary recovery parser, so the
source appends its human-readable diagnostic — but appends it to the
binary parser's datalog and then rebinds the result variable to the
raw-extraction fallback, whose `parse_errors` list is empty.  The
returned datalog is exactly the fallback result and carries no
diagnostic string. -/
theorem lost_diagnostic_bug :
    (parse_text_datalog (decodeUtf8Replace (List.replicate 100 0))
        (str "log.dl")).records = [] ∧
    (parse_binary_datalog (List.replicate 100 0) (str "log.dl")).records
        = [] ∧
    parse_dlz_file (fun _ => none) (fun _ => none)
        (.ok (List.replicate 100 0)) (str "log.dl")
      = extract_from_raw (List.replicate 100 0) (str "log.dl") ∧
    (parse_dlz_file (fun _ => none) (fun _ => none)
        (.ok (List.replicate 100 0)) (str "log.dl")).parse_errors = [] ∧
    (parse_dlz_file (fun _ => none) (fun _ => none)
        (.ok (List.replicate 100 0)) (str "log.dl")).metadata ≠ [] := by
  refine ⟨by decide, by decide, ?_, ?_, ?_⟩
  · with_unfolding_all decide
  · with_unfolding_all decide
  · with_unfolding_all decide

theorem dictInsert_keys {d : Rec} {k : List Char} {v : ℚ}
    {kv : List Char × ℚ} (h : kv ∈ dictInsert d k v) :
    kv.1 ∈ d.map Prod.fst ∨ kv.1 = k := by
  unfold dictInsert at h
  split at h
  · rw [List.mem_map] at h
    obtain ⟨p, hp, hpe⟩ := h
    left
    rw [List.mem_map]
    refine ⟨p, hp, ?_⟩
    by_cases hpk : p.1 = k
    · rw [if_pos hpk] at hpe
      rw [← hpe]
    · rw [if_neg hpk] at hpe
      rw [← hpe]
  · rw [List.mem_append] at h
    rcases h with h | h
    · exact Or.inl (List.mem_map_of_mem Prod.fst h)
    · simp only [List.mem_singleton] at h
      subst h
      exact Or.inr rfl

theorem foldl_dictInsert_keys :
    ∀ (l : List (List Char × ℚ)) (acc : Rec) (kv : List Char × ℚ),
    kv ∈ l.foldl (fun d p => dictInsert d p.1 p.2) acc →
    kv.1 ∈ acc.map Prod.fst ∨ kv.1 ∈ l.map Prod.fst := by
  intro l
  induction l with
  | nil => intro acc kv h; exact Or.inl (List.mem_map_of_mem Prod.fst h)
  | cons p t ih =>
    intro acc kv h
    simp only [List.foldl_cons] at h
    rcases ih (dictInsert acc p.1 p.2) kv h with h2 | h2
    · rw [List.mem_map] at h2
      obtain ⟨q, hq, hqe⟩ := h2
      rcases dictInsert_keys hq with h3 | h3
      · left; rw [← hqe]; exact h3
      · right
        rw [List.map_cons, List.mem_cons]
        left
        rw [← hqe, h3]
    · right
      rw [List.map_cons, List.mem_cons]
      exact Or.inr h2

theorem pyDict_keys {l : List (List Char × ℚ)} {kv : List Char × ℚ}
    (h : kv ∈ pyDict l) : kv.1 ∈ l.map Prod.fst := by
  rcases foldl_dictInsert_keys l [] kv h with h2 | h2
  · cases h2
  · exact h2

theorem buildRecord_keys {data : List Nat} {off n rowIdx : Nat}
    {kv : List Char × ℚ} (h : kv ∈ buildRecord data off n rowIdx) :
    kv.1 ∈ sniperChannelKeys.take n := by
  unfold buildRecord at h
  have h2 := pyDict_keys h
  simp only [List.map_map, List.mem_map, Function.comp] at h2
  obtain ⟨p, hp, he⟩ := h2
  rw [← he]
  exact List.snd_mem_of_mem_enum hp

theorem rowFilterMap_keys (mapped : List (List Char)) (delim : Char)
    (ls : List (List Char)) (r : Rec)
    (hr : r ∈ ls.filterMap (fun line =>
        let values := splitOnChar delim line
        if values.length = mapped.length then
          some (pyDict (List.zip mapped (values.map fieldValue)))
        else none))
    (kv : List Char × ℚ) (hkv : kv ∈ r) : kv.1 ∈ mapped := by
  simp only [List.mem_filterMap] at hr
  obtain ⟨line, _hline, hsome⟩ := hr
  split at hsome
  · have hre := Option.some.inj hsome
    subst hre
    have h2 := pyDict_keys hkv
    rw [List.mem_map] at h2
    obtain ⟨q, hq, hqe⟩ := h2
    rw [← hqe]
    exact (List.of_mem_zip hq).1
  · cases hsome

theorem parse_text_datalog_wf (text filepath : List Char) :
    (parse_text_datalog text filepath).filename = basename filepath ∧
    ∀ r ∈ (parse_text_datalog text filepath).records,
      ∀ kv ∈ r, kv.1 ∈ (parse_text_datalog text filepath).channels := by
  unfold parse_text_datalog
  cases hl : splitOnChar '\n' (pyStrip text) with
  | nil => exact ⟨rfl, by intro r hr; cases hr⟩
  | cons header tl =>
    cases tl with
    | nil => exact ⟨rfl, by intro r hr; cases hr⟩
    | cons line1 restLines =>
      refine ⟨rfl, ?_⟩
      intro r hr kv hkv
      exact rowFilterMap_keys _ _ _ r hr kv hkv

theorem parse_binary_datalog_wf (data : List Nat) (filepath : List Char) :
    (parse_binary_datalog data filepath).filename = basename filepath ∧
    ∀ r ∈ (parse_binary_datalog data filepath).records,
      ∀ kv ∈ r, kv.1 ∈ (parse_binary_datalog data filepath).channels := by
  unfold parse_binary_datalog
  split
  · exact ⟨rfl, by intro r hr; cases hr⟩
  · rw [searchOffsets_eq]
    cases hfind : ((offsetRange data).flatMap
        (fun off => channelCounts.map (fun n => (off, n)))).find?
          (validCandidate data) with
    | none => exact ⟨rfl, by intro r hr; cases hr⟩
    | some c =>
      refine ⟨rfl, ?_⟩
      intro r hr kv hkv
      show kv.1 ∈ (buildDatalog data filepath c).channels
      have hr2 : r ∈ (buildDatalog data filepath c).records := hr
      unfold buildDatalog at hr2 ⊢
      simp only [List.mem_map] at hr2
      obtain ⟨rowIdx, _, hre⟩ := hr2
      rw [← hre] at hkv
      exact buildRecord_keys hkv

theorem parse_buffer_wf (dec : List Nat) (rawLen : Nat)
    (filepath : List Char) :
    (parse_buffer dec rawLen filepath).filename = basename filepath ∧
    ∀ r ∈ (parse_buffer dec rawLen filepath).records,
      ∀ kv ∈ r, kv.1 ∈ (parse_buffer dec rawLen filepath).channels := by
  simp only [parse_buffer]
  split
  · rename_i d hd
    split at hd
    · split at hd
      · have hde := Option.some.inj hd
        subst hde
        exact parse_text_datalog_wf _ filepath
      · cases hd
    · cases hd
  · split
    · exact parse_binary_datalog_wf _ filepath
    · exact ⟨rfl, by intro r hr; cases hr⟩

/-- **C2**: the parsing pipeline is total — for every read outcome,
byte buffer and filename it returns a structurally valid datalog (its
filename is the path's basename and every record key is a declared
channel); a buffer shorter than 64 bytes makes the binary parser
return the fresh empty datalog immediately, and an unreadable file
yields an otherwise-empty result carrying the "Error reading file"
diagnostic instead of a propagated exception. -/
theorem parse_pipeline_totality :
    (∀ (data : List Nat) (filepath : List Char), data.length < 64 →
        parse_binary_datalog data filepath = mkEmpty (basename filepath)) ∧
    (∀ (zd rd : List Nat → Option (List Nat)) (e filepath : List Char),
        parse_dlz_file zd rd (.error e) filepath
          = { mkEmpty (basename filepath) with
              parse_errors := [str "Error reading file: " ++ e] }) ∧
    (∀ (zd rd : List Nat → Option (List Nat))
        (file : Except (List Char) (List Nat)) (filepath : List Char),
        (parse_dlz_file zd rd file filepath).filename = basename filepath ∧
        ∀ r ∈ (parse_dlz_file zd rd file filepath).records,
          ∀ kv ∈ r, kv.1 ∈ (parse_dlz_file zd rd file filepath).channels) := by
  refine ⟨?_, ?_, ?_⟩
  · intro data filepath h
    unfold parse_binary_datalog
    rw [if_pos h]
  · intro zd rd e filepath
    rfl
  · intro zd rd file filepath
    cases file with
    | error e => exact ⟨rfl, by intro r hr; cases hr⟩
    | ok raw =>
      simp only [parse_dlz_file]
      exact parse_buffer_wf _ _ filepath

/-- Witness for C2: the empty buffer is shorter than 64 bytes and the
binary parser returns the fresh empty datalog on it. -/
theorem parse_pipeline_totality_witness :
    parse_binary_datalog [] [] = mkEmpty (basename []) ∧
    (parse_binary_datalog [] []).records = [] :=
  ⟨parse_pipeline_totality.1 [] [] (by decide),
   by rw [parse_pipeline_totality.1 [] [] (by decide)]; rfl⟩

theorem stripP_spec (p : Nat) (hp : 2 ≤ p) :
    ∀ (fuel n : Nat), n ≠ 0 → n ≤ fuel →
    n = p ^ (stripP p fuel n).1 * (stripP p fuel n).2 ∧
    ¬ (p ∣ (stripP p fuel n).2) ∧ (stripP p fuel n).2 ≠ 0 := by
  intro fuel
  induction fuel with
  | zero => intro n hn hle; omega
  | succ fuel ih =>
    intro n hn hle
    rw [stripP]
    by_cases hc : 2 ≤ p ∧ n % p = 0 ∧ n ≠ 0
    · rw [if_pos hc]
      have hdvd : p ∣ n := Nat.dvd_of_mod_eq_zero hc.2.1
      have hq0 : n / p ≠ 0 := by
        intro h0
        have := Nat.div_mul_cancel hdvd
        rw [h0] at this
        omega
      have hqle : n / p ≤ fuel := by
        have : n / p < n := Nat.div_lt_self (by omega) (by omega)
        omega
      obtain ⟨he, hnd, hne⟩ := ih (n / p) hq0 hqle
      refine ⟨?_, hnd, hne⟩
      have hmul : p * (n / p) = n := Nat.mul_div_cancel' hdvd
      calc n = p * (n / p) := hmul.symm
        _ = p * (p ^ (stripP p fuel (n / p)).1 * (stripP p fuel (n / p)).2) := by
              rw [← he]
        _ = p ^ ((stripP p fuel (n / p)).1 + 1) * (stripP p fuel (n / p)).2 := by
              ring
    · rw [if_neg hc]
      refine ⟨by simp, ?_, hn⟩
      intro hdvd
      exact hc ⟨hp, Nat.dvd_iff_mod_eq_zero.mp hdvd, hn⟩

theorem digitsVal_foldl_init (b : List Char) :
    ∀ x : Nat, b.foldl (fun a c => 10 * a + (c.toNat - 48)) x
      = x * 10 ^ b.length + b.foldl (fun a c => 10 * a + (c.toNat - 48)) 0 := by
  induction b with
  | nil => intro x; simp
  | cons c t ih =>
    intro x
    simp only [List.foldl_cons, List.length_cons]
    rw [ih (10 * x + (c.toNat - 48)), ih (10 * 0 + (c.toNat - 48))]
    ring

theorem digitsVal_append (a b : List Char) :
    digitsVal (a ++ b) = digitsVal a * 10 ^ b.length + digitsVal b := by
  unfold digitsVal
  rw [List.foldl_append, digitsVal_foldl_init]

theorem char_digit_toNat (d : Nat) (hd : d < 10) :
    (Char.ofNat (d + 48)).toNat = d + 48 := by
  rw [Char.ofNat, dif_pos (Or.inl (by omega))]
  simp [Char.ofNatAux, Char.toNat, UInt32.toNat, UInt32.ofNatCore]

theorem char_digit_isDigit (d : Nat) (hd : d < 10) :
    isDigitChar (Char.ofNat (d + 48)) = true := by
  have ht := char_digit_toNat d hd
  unfold isDigitChar
  rw [decide_eq_true_iff]
  constructor
  · show ('0').toNat ≤ (Char.ofNat (d + 48)).toNat
    rw [ht]
    show 48 ≤ d + 48
    omega
  · show (Char.ofNat (d + 48)).toNat ≤ ('9').toNat
    rw [ht]
    show d + 48 ≤ 57
    omega

theorem natDigitsGo_spec :
    ∀ (fuel n : Nat), n ≤ fuel →
    digitsVal (natDigitsGo fuel n) = n ∧
    (∀ c ∈ natDigitsGo fuel n, isDigitChar c = true) ∧
    (∀ k, n < 10 ^ k → (natDigitsGo fuel n).length ≤ k) := by
  intro fuel
  induction fuel with
  | zero =>
    intro n hle
    have hn0 : n = 0 := by omega
    subst hn0
    refine ⟨rfl, ?_, ?_⟩
    · intro c hc
      cases hc
    · intro k _
      show (List.length ([] : List Char)) ≤ k
      simp
  | succ fuel ih =>
    intro n hle
    rw [natDigitsGo]
    by_cases hn : n = 0
    · rw [if_pos hn]
      refine ⟨by simp [digitsVal, hn], ?_, ?_⟩
      · intro c hc
        cases hc
      · intro k _
        simp
    · rw [if_neg hn]
      have hqle : n / 10 ≤ fuel := by
        have : n / 10 < n := Nat.div_lt_self (by omega) (by omega)
        omega
      obtain ⟨hv, hd, hl⟩ := ih (n / 10) hqle
      have hm : n % 10 < 10 := Nat.mod_lt _ (by omega)
      refine ⟨?_, ?_, ?_⟩
      · rw [digitsVal_append, hv]
        have hone : digitsVal [Char.ofNat (n % 10 + 48)] = n % 10 := by
          show 10 * 0 + ((Char.ofNat (n % 10 + 48)).toNat - 48) = n % 10
          rw [char_digit_toNat _ hm]
          omega
        rw [hone]
        simp only [List.length_singleton, pow_one]
        omega
      · intro c hc
        rcases List.mem_append.mp hc with h | h
        · exact hd c h
        · simp only [List.mem_singleton] at h
          subst h
          exact char_digit_isDigit _ hm
      · intro k hk
        rw [List.length_append, List.length_singleton]
        cases k with
        | zero =>
          exfalso
          simp at hk
          omega
        | succ kk =>
          have hlt : n / 10 < 10 ^ kk := by
            rw [Nat.div_lt_iff_lt_mul (by omega)]
            calc n < 10 ^ (kk + 1) := hk
              _ = 10 ^ kk * 10 := by ring
          have := hl kk hlt
          omega

theorem natToDigits_spec (n : Nat) :
    digitsVal (natToDigits n) = n ∧
    (∀ c ∈ natToDigits n, isDigitChar c = true) ∧
    natToDigits n ≠ [] ∧
    (∀ k, 1 ≤ k → n < 10 ^ k → (natToDigits n).length ≤ k) := by
  unfold natToDigits
  by_cases hn : n = 0
  · rw [if_pos hn]
    refine ⟨by simp [digitsVal, hn], ?_, by simp, ?_⟩
    · intro c hc
      simp only [List.mem_singleton] at hc
      subst hc
      decide
    · intro k hk _
      simpa using hk
  · rw [if_neg hn]
    obtain ⟨hv, hd, hl⟩ := natDigitsGo_spec n n (le_refl n)
    refine ⟨hv, hd, ?_, fun k _ hk => hl k hk⟩
    intro hnil
    rw [hnil] at hv
    exact hn hv.symm

theorem digitsVal_padZeros (k : Nat) (s : List Char) :
    digitsVal (padZeros k s) = digitsVal s := by
  unfold padZeros digitsVal
  rw [List.foldl_append]
  congr 1
  induction (k - s.length) with
  | zero => rfl
  | succ j ih => simpa [List.replicate_succ] using ih

theorem padZeros_length (k : Nat) (s : List Char) (h : s.length ≤ k) :
    (padZeros k s).length = k := by
  unfold padZeros
  rw [List.length_append, List.length_replicate]
  omega

theorem padZeros_digits (k : Nat) (s : List Char)
    (h : ∀ c ∈ s, isDigitChar c = true) :
    ∀ c ∈ padZeros k s, isDigitChar c = true := by
  intro c hc
  unfold padZeros at hc
  rcases List.mem_append.mp hc with h2 | h2
  · have := List.eq_of_mem_replicate h2
    subst this
    decide
  · exact h c h2

theorem dvd_two_five {n x y : Nat} (h : n ∣ 2 ^ x * 5 ^ y) :
    ∃ a b, n = 2 ^ a * 5 ^ b := by
  obtain ⟨u, v, hu, hv, huv⟩ := Nat.dvd_mul.mp h
  obtain ⟨a, _, ha⟩ := (Nat.dvd_prime_pow Nat.prime_two).mp hu
  obtain ⟨b, _, hb⟩ := (Nat.dvd_prime_pow (by norm_num)).mp hv
  exact ⟨a, b, by rw [← huv, ha, hb]⟩

theorem takeWhile_all_append (p : Char → Bool) (a b : List Char)
    (h : ∀ c ∈ a, p c = true) :
    (a ++ b).takeWhile p = a ++ b.takeWhile p := by
  induction a with
  | nil => simp
  | cons c t ih =>
    rw [List.cons_append, List.takeWhile_cons, if_pos (h c (by simp))]
    rw [ih (fun c hc => h c (by simp [hc])), List.cons_append]

theorem dropWhile_all_append (p : Char → Bool) (a b : List Char)
    (h : ∀ c ∈ a, p c = true) :
    (a ++ b).dropWhile p = b.dropWhile p := by
  induction a with
  | nil => simp
  | cons c t ih =>
    rw [List.cons_append, List.dropWhile_cons, if_pos (h c (by simp))]
    exact ih (fun c hc => h c (by simp [hc]))

theorem isDigitChar_ne_signs {c : Char} (h : isDigitChar c = true) :
    c ≠ '+' ∧ c ≠ '-' ∧ c ≠ '.' := by
  unfold isDigitChar at h
  rw [decide_eq_true_iff] at h
  refine ⟨?_, ?_, ?_⟩ <;>
    · intro he
      subst he
      revert h
      decide

theorem parseSign_of_ne (c : Char) (l : List Char)
    (h1 : c ≠ '+') (h2 : c ≠ '-') :
    parseSign (c :: l) = (1, c :: l) := by
  unfold parseSign
  split
  · rename_i he
    cases he
    exact absurd rfl h1
  · rename_i he
    cases he
    exact absurd rfl h2
  · rfl

theorem pyFloat_decimal_parse (sgnNeg : Bool) (ipStr fpStr : List Char)
    (hip : ∀ c ∈ ipStr, isDigitChar c = true) (hipne : ipStr ≠ [])
    (hfp : ∀ c ∈ fpStr, isDigitChar c = true) :
    pyFloat ((if sgnNeg then ['-'] else []) ++ ipStr
        ++ (if fpStr = [] then [] else '.' :: fpStr))
      = some ((Int.cast (if sgnNeg then (-1 : ℤ) else 1) : ℚ)
          * ((digitsVal ipStr : ℚ) * 10 ^ fpStr.length + (digitsVal fpStr : ℚ))
          / 10 ^ fpStr.length) := by
  obtain ⟨c0, ip0, hip0⟩ : ∃ c0 ip0, ipStr = c0 :: ip0 := by
    cases ipStr with
    | nil => exact absurd rfl hipne
    | cons c0 ip0 => exact ⟨c0, ip0, rfl⟩
  have hc0 := isDigitChar_ne_signs (hip c0 (by simp [hip0]))
  have hsign : parseSign ((if sgnNeg then ['-'] else []) ++ ipStr
      ++ (if fpStr = [] then [] else '.' :: fpStr))
      = ((if sgnNeg then (-1 : ℤ) else 1),
         ipStr ++ (if fpStr = [] then [] else '.' :: fpStr)) := by
    cases sgnNeg with
    | true => simp [parseSign]
    | false =>
      have hgoal : (if (false : Bool) then ['-'] else ([] : List Char)) = [] :=
        rfl
      rw [hgoal, List.nil_append, hip0, List.cons_append,
          parseSign_of_ne c0 _ hc0.1 hc0.2.1]
      rfl
  have htake : (ipStr ++ (if fpStr = [] then [] else '.' :: fpStr)).takeWhile
      isDigitChar = ipStr := by
    rw [takeWhile_all_append _ _ _ hip]
    by_cases hf : fpStr = []
    · rw [if_pos hf]
      simp
    · rw [if_neg hf]
      rw [List.takeWhile_cons, if_neg (by decide)]
      simp
  have hdrop : (ipStr ++ (if fpStr = [] then [] else '.' :: fpStr)).dropWhile
      isDigitChar = (if fpStr = [] then [] else '.' :: fpStr) := by
    rw [dropWhile_all_append _ _ _ hip]
    by_cases hf : fpStr = []
    · rw [if_pos hf]
      rfl
    · rw [if_neg hf]
      rw [List.dropWhile_cons, if_neg (by decide)]
  simp only [pyFloat, hsign]
  simp only [htake, hdrop]
  by_cases hf : fpStr = []
  · subst hf
    simp only [if_pos rfl]
    rw [if_neg hipne]
    unfold parseAfterMantissa
    rfl
  · rw [if_neg hf]
    have htake2 : fpStr.takeWhile isDigitChar = fpStr := by
      have h2 := takeWhile_all_append isDigitChar fpStr [] hfp
      simpa using h2
    have hdrop2 : fpStr.dropWhile isDigitChar = [] := by
      have h2 := dropWhile_all_append isDigitChar fpStr [] hfp
      simpa using h2
    show (if ipStr = [] ∧ fpStr.takeWhile isDigitChar = [] then none
        else parseAfterMantissa (if sgnNeg = true then -1 else 1) ipStr
          (fpStr.takeWhile isDigitChar) (fpStr.dropWhile isDigitChar)) = _
    rw [htake2, hdrop2, if_neg (by intro hcon; exact hipne hcon.1)]
    unfold parseAfterMantissa
    rfl

theorem decimal_value_eq (q : ℚ) (k m : Nat)
    (hmden : m * q.den = q.num.natAbs * 10 ^ k) :
    ((Int.cast (if q.num < 0 then (-1 : ℤ) else 1) : ℚ) * (m : ℚ) / 10 ^ k)
      = q := by
  have hden0 : q.den ≠ 0 := q.den_nz
  have h10 : ((10 : ℚ) ^ k) ≠ 0 := by positivity
  have hdq : ((q.den : ℚ)) ≠ 0 := by exact_mod_cast hden0
  have hmden' : (m : ℚ) * (q.den : ℚ) = (q.num.natAbs : ℚ) * 10 ^ k := by
    exact_mod_cast hmden
  conv_rhs => rw [← Rat.num_div_den q]
  rw [div_eq_div_iff h10 hdq]
  by_cases hn : q.num < 0
  · rw [if_pos hn]
    have habs : ((q.num.natAbs : ℚ)) = -(q.num : ℚ) := by
      rw [Int.cast_natAbs, Int.cast_abs]
      exact abs_of_neg (by exact_mod_cast hn)
    push_cast
    calc (-1 : ℚ) * (m : ℚ) * (q.den : ℚ)
        = -((m : ℚ) * (q.den : ℚ)) := by ring
      _ = -((q.num.natAbs : ℚ) * 10 ^ k) := by rw [hmden']
      _ = -((q.num.natAbs : ℚ)) * 10 ^ k := by ring
      _ = (q.num : ℚ) * 10 ^ k := by rw [habs]; ring
  · rw [if_neg hn]
    have habs : ((q.num.natAbs : ℚ)) = (q.num : ℚ) := by
      rw [Int.cast_natAbs, Int.cast_abs]
      exact abs_of_nonneg (by exact_mod_cast not_lt.mp hn)
    push_cast
    calc (1 : ℚ) * (m : ℚ) * (q.den : ℚ)
        = (m : ℚ) * (q.den : ℚ) := by ring
      _ = (q.num.natAbs : ℚ) * 10 ^ k := hmden'
      _ = (q.num : ℚ) * 10 ^ k := by rw [habs]

theorem ratToDecStr_core (q : ℚ) (k m : Nat)
    (hmden : m * q.den = q.num.natAbs * 10 ^ k) :
    pyFloat ((if q.num < 0 then ['-'] else []) ++ natToDigits (m / 10 ^ k)
      ++ (if k = 0 then [] else '.' :: padZeros k (natToDigits (m % 10 ^ k))))
      = some q := by
  obtain ⟨hv1, hd1, hne1, _⟩ := natToDigits_spec (m / 10 ^ k)
  obtain ⟨hv2, hd2, hne2, hl2⟩ := natToDigits_spec (m % 10 ^ k)
  have hifsgn : (if decide (q.num < 0) then ['-'] else ([] : List Char))
      = (if q.num < 0 then ['-'] else []) := by
    by_cases hn : q.num < 0 <;> simp [hn]
  have hifsgn2 : (Int.cast (if decide (q.num < 0) then (-1 : ℤ) else 1) : ℚ)
      = (Int.cast (if q.num < 0 then (-1 : ℤ) else 1) : ℚ) := by
    by_cases hn : q.num < 0 <;> simp [hn]
  by_cases hk0 : k = 0
  · subst hk0
    have hparse := pyFloat_decimal_parse (decide (q.num < 0))
      (natToDigits (m / 10 ^ 0)) [] hd1 hne1 (by intro c hc; cases hc)
    rw [hifsgn, hifsgn2] at hparse
    have hval : (Int.cast (if q.num < 0 then (-1 : ℤ) else 1) : ℚ)
        * ((digitsVal (natToDigits (m / 10 ^ 0)) : ℚ)
            * 10 ^ (List.length ([] : List Char))
          + (digitsVal ([] : List Char) : ℚ))
        / 10 ^ (List.length ([] : List Char)) = q := by
      rw [hv1]
      have hz : (digitsVal ([] : List Char) : ℚ) = 0 := rfl
      rw [hz]
      have hm0 : m / 10 ^ 0 = m := by simp
      rw [hm0]
      simp only [List.length_nil, pow_zero, mul_one, add_zero, div_one]
      have hde := decimal_value_eq q 0 m hmden
      simpa using hde
    exact hparse.trans (congrArg some hval)
  · have hkpos : 1 ≤ k := by omega
    have hfplen : (padZeros k (natToDigits (m % 10 ^ k))).length = k := by
      apply padZeros_length
      apply hl2 k hkpos
      exact Nat.mod_lt _ (by positivity)
    have hfpne : padZeros k (natToDigits (m % 10 ^ k)) ≠ [] := by
      intro hcon
      rw [hcon] at hfplen
      simp at hfplen
      omega
    have hfpd := padZeros_digits k (natToDigits (m % 10 ^ k)) hd2
    have hparse := pyFloat_decimal_parse (decide (q.num < 0))
      (natToDigits (m / 10 ^ k)) (padZeros k (natToDigits (m % 10 ^ k)))
      hd1 hne1 hfpd
    rw [if_neg hfpne, hifsgn] at hparse
    rw [if_neg hk0, hparse, hifsgn2]
    congr 1
    rw [hv1, hfplen, digitsVal_padZeros, hv2]
    have hsum : ((m / 10 ^ k : ℕ) : ℚ) * 10 ^ k + ((m % 10 ^ k : ℕ) : ℚ)
        = (m : ℚ) := by
      have hdm := Nat.div_add_mod m (10 ^ k)
      have h2 := congrArg (fun n : ℕ => (n : ℚ)) hdm
      push_cast at h2
      linarith [h2]
    rw [hsum]
    exact decimal_value_eq q k m hmden

theorem ratToDecStr_spec (q : ℚ) (h : ∃ a b : Nat, q.den = 2 ^ a * 5 ^ b) :
    pyFloat (ratToDecStr q) = some q := by
  have hden0 : q.den ≠ 0 := q.den_nz
  obtain ⟨h2e, h2nd, h2ne⟩ := stripP_spec 2 (by omega) q.den q.den hden0
    (le_refl _)
  obtain ⟨h5e, h5nd, h5ne⟩ := stripP_spec 5 (by omega)
    (stripP 2 q.den q.den).2 (stripP 2 q.den q.den).2 h2ne (le_refl _)
  have hr5_one : (stripP 5 (stripP 2 q.den q.den).2 (stripP 2 q.den q.den).2).2
      = 1 := by
    obtain ⟨a, b, hab⟩ := h
    have hr5r2 : (stripP 5 (stripP 2 q.den q.den).2 (stripP 2 q.den q.den).2).2
        ∣ (stripP 2 q.den q.den).2 := by
      conv_rhs => rw [h5e]
      exact Dvd.intro_left _ rfl
    have hdvd : (stripP 5 (stripP 2 q.den q.den).2 (stripP 2 q.den q.den).2).2
        ∣ q.den := by
      conv_rhs => rw [h2e]
      exact Dvd.dvd.mul_left hr5r2 _
    obtain ⟨x, y, hxy⟩ := dvd_two_five
      (show (stripP 5 (stripP 2 q.den q.den).2 (stripP 2 q.den q.den).2).2
          ∣ 2 ^ a * 5 ^ b by rw [← hab]; exact hdvd)
    have hx : x = 0 := by
      by_contra hx0
      apply h2nd
      have h2r5 : (2 : ℕ) ∣
          (stripP 5 (stripP 2 q.den q.den).2 (stripP 2 q.den q.den).2).2 := by
        rw [hxy]
        exact Dvd.dvd.mul_right (dvd_pow_self 2 hx0) _
      exact h2r5.trans hr5r2
    have hy : y = 0 := by
      by_contra hy0
      apply h5nd
      rw [hxy]
      exact Dvd.dvd.mul_left (dvd_pow_self 5 hy0) _
    rw [hxy, hx, hy]
    norm_num
  have hAB : q.den = 2 ^ (stripP 2 q.den q.den).1
      * 5 ^ (stripP 5 (stripP 2 q.den q.den).2 (stripP 2 q.den q.den).2).1 := by
    conv_lhs => rw [h2e]
    congr 1
    conv_lhs => rw [h5e]
    rw [hr5_one, mul_one]
  have hmden : q.num.natAbs
      * (2 ^ (max (max (stripP 2 q.den q.den).1
            (stripP 5 (stripP 2 q.den q.den).2 (stripP 2 q.den q.den).2).1) 1
          - (stripP 2 q.den q.den).1)
        * 5 ^ (max (max (stripP 2 q.den q.den).1
            (stripP 5 (stripP 2 q.den q.den).2 (stripP 2 q.den q.den).2).1) 1
          - (stripP 5 (stripP 2 q.den q.den).2 (stripP 2 q.den q.den).2).1))
      * q.den
      = q.num.natAbs * 10 ^ (max (max (stripP 2 q.den q.den).1
          (stripP 5 (stripP 2 q.den q.den).2 (stripP 2 q.den q.den).2).1) 1) := by
    generalize hA : (stripP 2 q.den q.den).1 = A at hAB
    generalize hB : (stripP 5 (stripP 2 q.den q.den).2
      (stripP 2 q.den q.den).2).1 = B at hAB
    rw [hAB]
    have hAle : A ≤ max (max A B) 1 :=
      le_trans (le_max_left A B) (le_max_left _ 1)
    have hBle : B ≤ max (max A B) 1 :=
      le_trans (le_max_right A B) (le_max_left _ 1)
    have h1 : 2 ^ (max (max A B) 1 - A) * 2 ^ A = 2 ^ max (max A B) 1 := by
      rw [← pow_add, Nat.sub_add_cancel hAle]
    have h2 : 5 ^ (max (max A B) 1 - B) * 5 ^ B = 5 ^ max (max A B) 1 := by
      rw [← pow_add, Nat.sub_add_cancel hBle]
    calc q.num.natAbs
          * (2 ^ (max (max A B) 1 - A) * 5 ^ (max (max A B) 1 - B))
          * (2 ^ A * 5 ^ B)
        = q.num.natAbs
            * ((2 ^ (max (max A B) 1 - A) * 2 ^ A)
              * (5 ^ (max (max A B) 1 - B) * 5 ^ B)) := by
          ring
      _ = q.num.natAbs * (2 ^ max (max A B) 1 * 5 ^ max (max A B) 1) := by
          rw [h1, h2]
      _ = q.num.natAbs * 10 ^ max (max A B) 1 := by rw [← Nat.mul_pow]
  have hco := ratToDecStr_core q _ _ hmden
  rw [if_neg (show ¬ max (max (stripP 2 q.den q.den).1
      (stripP 5 (stripP 2 q.den q.den).2 (stripP 2 q.den q.den).2).1) 1 = 0
    by omega)] at hco
  unfold ratToDecStr
  simp only [hr5_one, if_pos rfl]
  exact hco

theorem splitOnChar_of_not_mem (sep : Char) (l : List Char) (h : sep ∉ l) :
    splitOnChar sep l = [l] := by
  induction l with
  | nil => rfl
  | cons c t ih =>
    unfold splitOnChar
    rw [if_neg (by intro he; exact h (he ▸ List.mem_cons_self c t))]
    rw [ih (fun hm => h (List.mem_cons_of_mem c hm))]

theorem splitOnChar_append_cons (sep : Char) (a b : List Char)
    (h : sep ∉ a) :
    splitOnChar sep (a ++ sep :: b) = a :: splitOnChar sep b := by
  induction a with
  | nil =>
    show splitOnChar sep (sep :: b) = [] :: splitOnChar sep b
    conv_lhs => unfold splitOnChar
    rw [if_pos rfl]
  | cons c t ih =>
    have hc : c ≠ sep := by
      intro he; exact h (he ▸ List.mem_cons_self c t)
    show splitOnChar sep (c :: (t ++ sep :: b)) = (c :: t) :: splitOnChar sep b
    conv_lhs => unfold splitOnChar
    rw [if_neg hc, ih (fun hm => h (List.mem_cons_of_mem c hm))]

theorem intercalate_singleton (s a : List Char) :
    List.intercalate s [a] = a := by
  simp [List.intercalate]

theorem intercalate_cons₂ (s a b : List Char) (r : List (List Char)) :
    List.intercalate s (a :: b :: r) = a ++ s ++ List.intercalate s (b :: r) := by
  simp [List.intercalate, List.intersperse]

theorem splitOnChar_intercalate_append (sep : Char) (t : List Char)
    (ht : sep ∉ t) :
    ∀ ps : List (List Char), ps ≠ [] → (∀ p ∈ ps, sep ∉ p) →
    splitOnChar sep (List.intercalate [sep] ps ++ t) = appendToLast t ps := by
  intro ps
  induction ps with
  | nil => intro h; exact absurd rfl h
  | cons p ps' ih =>
    intro _ hp
    cases ps' with
    | nil =>
      rw [intercalate_singleton]
      rw [splitOnChar_of_not_mem sep (p ++ t) (by
        intro hm
        rcases List.mem_append.mp hm with hm | hm
        · exact hp p (List.mem_cons_self _ _) hm
        · exact ht hm)]
      rfl
    | cons p₂ ps'' =>
      rw [intercalate_cons₂]
      have hra : (p ++ [sep] ++ List.intercalate [sep] (p₂ :: ps'')) ++ t
          = p ++ sep :: (List.intercalate [sep] (p₂ :: ps'') ++ t) := by
        simp
      rw [hra, splitOnChar_append_cons sep p _ (hp p (List.mem_cons_self _ _))]
      rw [ih (by simp) (fun q hq => hp q (List.mem_cons_of_mem p hq))]
      rfl

theorem mem_intercalate_sep (sep c : Char) :
    ∀ ps : List (List Char), c ∈ List.intercalate [sep] ps →
      c = sep ∨ ∃ p ∈ ps, c ∈ p := by
  intro ps
  induction ps with
  | nil => intro h; simp [List.intercalate] at h
  | cons p ps' ih =>
    intro h
    cases ps' with
    | nil =>
      rw [intercalate_singleton] at h
      exact Or.inr ⟨p, List.mem_cons_self _ _, h⟩
    | cons p₂ ps'' =>
      rw [intercalate_cons₂] at h
      rcases List.mem_append.mp h with h1 | h1
      · rcases List.mem_append.mp h1 with h2 | h2
        · exact Or.inr ⟨p, List.mem_cons_self _ _, h2⟩
        · exact Or.inl (by simpa using h2)
      · rcases ih h1 with h2 | ⟨q, hq, hcq⟩
        · exact Or.inl h2
        · exact Or.inr ⟨q, List.mem_cons_of_mem p hq, hcq⟩

theorem appendToLast_map {α : Type} (g : List Char → α) (t : List Char)
    (hg : ∀ x, g (x ++ t) = g x) :
    ∀ xs : List (List Char), xs ≠ [] →
      (appendToLast t xs).map g = xs.map g := by
  intro xs
  induction xs with
  | nil => intro h; exact absurd rfl h
  | cons x xs' ih =>
    intro _
    cases xs' with
    | nil =>
      show [g (x ++ t)] = [g x]
      rw [hg]
    | cons x₂ xs'' =>
      show g x :: (appendToLast t (x₂ :: xs'')).map g = g x :: (x₂ :: xs'').map g
      rw [ih (by simp)]

theorem appendToLast_length (t : List Char) :
    ∀ xs : List (List Char), xs ≠ [] →
      (appendToLast t xs).length = xs.length := by
  intro xs
  induction xs with
  | nil => intro h; exact absurd rfl h
  | cons x xs' ih =>
    intro _
    cases xs' with
    | nil => rfl
    | cons x₂ xs'' =>
      show (appendToLast t (x₂ :: xs'')).length + 1 = (x₂ :: xs'').length + 1
      rw [ih (by simp)]

theorem linesOf_cons (b : List Char) (bs : List (List Char)) (h : bs ≠ []) :
    linesOf (b :: bs) = (b ++ ['\r']) :: linesOf bs := by
  cases bs with
  | nil => exact absurd rfl h
  | cons b2 bs' => rfl

theorem linesOf_concat :
    ∀ (bs : List (List Char)) (b : List Char),
      linesOf (bs ++ [b]) = bs.map (fun x => x ++ ['\r']) ++ [b] := by
  intro bs
  induction bs with
  | nil => intro b; rfl
  | cons x bs' ih =>
    intro b
    rw [List.cons_append, linesOf_cons x (bs' ++ [b]) (by simp), ih]
    rfl

theorem crlfJoin_concat (bs : List (List Char)) (b : List Char) :
    crlfJoin (bs ++ [b]) = (crlfJoin bs ++ b) ++ ['\r', '\n'] := by
  unfold crlfJoin
  simp

theorem crlfJoin_cons (b : List Char) (bs : List (List Char)) :
    crlfJoin (b :: bs) = b ++ '\r' :: '\n' :: crlfJoin bs := by
  unfold crlfJoin
  simp

theorem splitOnChar_crlfJoin_append (b : List Char) (hb : '\n' ∉ b) :
    ∀ bs : List (List Char), (∀ x ∈ bs, '\n' ∉ x) →
    splitOnChar '\n' (crlfJoin bs ++ b)
      = bs.map (fun x => x ++ ['\r']) ++ [b] := by
  intro bs
  induction bs with
  | nil =>
    intro _
    show splitOnChar '\n' ([] ++ b) = [b]
    rw [List.nil_append]
    exact splitOnChar_of_not_mem '\n' b hb
  | cons x bs' ih =>
    intro hx
    rw [crlfJoin_cons]
    have hra : (x ++ '\r' :: '\n' :: crlfJoin bs') ++ b
        = (x ++ ['\r']) ++ '\n' :: (crlfJoin bs' ++ b) := by simp
    rw [hra, splitOnChar_append_cons '\n' _ _ (by
      intro hm
      rcases List.mem_append.mp hm with hm | hm
      · exact hx x (List.mem_cons_self _ _) hm
      · simp at hm)]
    rw [ih (fun y hy => hx y (List.mem_cons_of_mem x hy))]
    rfl

theorem dropWhile_head_false {p : Char → Bool} :
    ∀ {l : List Char} {c : Char} {r : List Char},
      l.dropWhile p = c :: r → p c = false := by
  intro l
  induction l with
  | nil => intro c r h; simp at h
  | cons a l' ih =>
    intro c r h
    rw [List.dropWhile_cons] at h
    by_cases hp : p a
    · rw [if_pos hp] at h
      exact ih h
    · rw [if_neg hp] at h
      cases h
      exact Bool.eq_false_iff.mpr hp

theorem suffix_getLast? {l₁ l₂ : List Char} (h : l₁ <:+ l₂) (hne : l₁ ≠ []) :
    l₁.getLast? = l₂.getLast? := by
  obtain ⟨pre, hpre⟩ := h
  rw [← hpre, List.getLast?_append_of_ne_nil pre hne]

theorem pyStrip_getLast? {s : List Char} {c : Char}
    (h : (pyStrip s).getLast? = some c) : isPyWhitespace c = false := by
  unfold pyStrip at h
  rw [List.getLast?_reverse] at h
  cases hd : ((s.dropWhile isPyWhitespace).reverse.dropWhile isPyWhitespace) with
  | nil => rw [hd] at h; simp at h
  | cons a r =>
    rw [hd] at h
    cases h
    exact dropWhile_head_false hd

theorem pyStrip_head? {s : List Char} {c : Char}
    (h : (pyStrip s).head? = some c) : isPyWhitespace c = false := by
  unfold pyStrip at h
  rw [List.head?_reverse] at h
  have hne : (s.dropWhile isPyWhitespace).reverse.dropWhile isPyWhitespace
      ≠ [] := by
    intro hcon
    rw [hcon] at h
    simp at h
  rw [suffix_getLast? (List.dropWhile_suffix _) hne,
      List.getLast?_reverse] at h
  cases hA2 : s.dropWhile isPyWhitespace with
  | nil => rw [hA2] at h; simp at h
  | cons a r =>
    rw [hA2] at h
    cases h
    exact dropWhile_head_false hA2

theorem pyStrip_eq_self {s : List Char}
    (hh : ∀ c, s.head? = some c → isPyWhitespace c = false)
    (hl : ∀ c, s.getLast? = some c → isPyWhitespace c = false) :
    pyStrip s = s := by
  unfold pyStrip
  have h1 : s.dropWhile isPyWhitespace = s := by
    cases hs : s with
    | nil => rfl
    | cons a r =>
      rw [List.dropWhile_cons, if_neg (by
        rw [hh a (by rw [hs]; rfl)]
        simp)]
  rw [h1]
  have h2 : s.reverse.dropWhile isPyWhitespace = s.reverse := by
    cases hs : s.reverse with
    | nil => rfl
    | cons a r =>
      rw [List.dropWhile_cons, if_neg (by
        rw [hl a (by rw [← List.head?_reverse, hs]; rfl)]
        simp)]
  rw [h2, List.reverse_reverse]

theorem pyStrip_append_ws {g t : List Char}
    (h : ∀ c ∈ t, isPyWhitespace c = true) :
    pyStrip (g ++ t) = pyStrip g := by
  unfold pyStrip
  rw [List.dropWhile_append]
  by_cases he : (g.dropWhile isPyWhitespace).isEmpty
  · rw [if_pos he]
    have ht : t.dropWhile isPyWhitespace = [] :=
      List.dropWhile_eq_nil_iff.mpr (fun a ha => by rw [h a ha])
    have hg : g.dropWhile isPyWhitespace = [] := by
      cases hg2 : g.dropWhile isPyWhitespace with
      | nil => rfl
      | cons a r => rw [hg2] at he; simp at he
    rw [ht, hg]
  · rw [if_neg he]
    rw [List.reverse_append]
    rw [dropWhile_all_append _ _ _ (fun c hc => h c (List.mem_reverse.mp hc))]

theorem pyStrip_idem (s : List Char) : pyStrip (pyStrip s) = pyStrip s :=
  pyStrip_eq_self (fun _ hc => pyStrip_head? hc) (fun _ hc => pyStrip_getLast? hc)

theorem mem_pyStrip {c : Char} {s : List Char} (h : c ∈ pyStrip s) : c ∈ s := by
  unfold pyStrip at h
  rw [List.mem_reverse] at h
  have h2 := (List.dropWhile_suffix isPyWhitespace).subset h
  rw [List.mem_reverse] at h2
  exact (List.dropWhile_suffix isPyWhitespace).subset h2

theorem length_pyStrip_le (s : List Char) : (pyStrip s).length ≤ s.length := by
  unfold pyStrip
  rw [List.length_reverse]
  calc ((s.dropWhile isPyWhitespace).reverse.dropWhile isPyWhitespace).length
      ≤ (s.dropWhile isPyWhitespace).reverse.length :=
        (List.dropWhile_suffix isPyWhitespace).length_le
    _ = (s.dropWhile isPyWhitespace).length := List.length_reverse _
    _ ≤ s.length := (List.dropWhile_suffix isPyWhitespace).length_le

theorem pyStrip_cons_ws {c : Char} {r : List Char}
    (hw : isPyWhitespace c = true) : pyStrip (c :: r) = pyStrip r := by
  unfold pyStrip
  rw [List.dropWhile_cons, if_pos (by rw [hw])]

theorem pyStrip_self_head {s : List Char} (h : pyStrip s = s) :
    ∀ c, s.head? = some c → isPyWhitespace c = false := by
  intro c hc
  cases hs : s with
  | nil => rw [hs] at hc; simp at hc
  | cons a r =>
    rw [hs] at hc
    cases hc
    by_contra hcon
    have hw : isPyWhitespace c = true := by
      cases hw2 : isPyWhitespace c
      · exact absurd hw2 hcon
      · rfl
    have := length_pyStrip_le r
    rw [hs, pyStrip_cons_ws hw] at h
    have hlen := congrArg List.length h
    simp at hlen
    omega

theorem pyStripQuote_eq_self {s : List Char} (h : '\x22' ∉ s) :
    pyStripQuote s = s := by
  unfold pyStripQuote
  have h1 : s.dropWhile (fun c => c = '\x22') = s := by
    cases hs : s with
    | nil => rfl
    | cons a r =>
      rw [List.dropWhile_cons, if_neg (by
        simp only [decide_eq_true_eq]
        intro he
        exact h (by rw [hs, he]; exact List.mem_cons_self _ _))]
  rw [h1]
  have h2 : s.reverse.dropWhile (fun c => c = '\x22') = s.reverse := by
    cases hs : s.reverse with
    | nil => rfl
    | cons a r =>
      rw [List.dropWhile_cons, if_neg (by
        simp only [decide_eq_true_eq]
        intro he
        apply h
        rw [← List.mem_reverse, hs, he]
        exact List.mem_cons_self _ _)]
  rw [h2, List.reverse_reverse]

theorem mem_pyStripQuote {c : Char} {s : List Char}
    (h : c ∈ pyStripQuote s) : c ∈ s := by
  unfold pyStripQuote at h
  rw [List.mem_reverse] at h
  have h2 := (List.dropWhile_suffix _).subset h
  rw [List.mem_reverse] at h2
  exact (List.dropWhile_suffix _).subset h2

theorem char_toNat_of_upper {c : Char} (h : 'A' ≤ c ∧ c ≤ 'Z') :
    65 ≤ c.toNat ∧ c.toNat ≤ 90 := by
  obtain ⟨h1, h2⟩ := h
  rw [Char.le_def] at h1 h2
  exact ⟨by exact_mod_cast h1, by exact_mod_cast h2⟩

theorem char_ofNat_toNat {n : Nat} (h : n.isValidChar) :
    (Char.ofNat n).toNat = n := by
  simp only [Char.ofNat, h, dite_true, Char.ofNatAux, Char.toNat]
  exact BitVec.toNat_ofNatLt _ _

theorem lowerChar_shift {c : Char} (h : 'A' ≤ c ∧ c ≤ 'Z') :
    97 ≤ (lowerChar c).toNat ∧ (lowerChar c).toNat ≤ 122 := by
  have hb := char_toNat_of_upper h
  unfold lowerChar
  rw [if_pos h]
  have hv : (c.toNat + 32).isValidChar := Or.inl (by omega)
  rw [char_ofNat_toNat hv]
  omega

theorem lowerChar_lower {c : Char} (h : 97 ≤ c.toNat ∧ c.toNat ≤ 122) :
    lowerChar c = c := by
  unfold lowerChar
  rw [if_neg]
  intro hcon
  have hb := char_toNat_of_upper hcon
  omega

theorem lowerChar_lowerChar (c : Char) :
    lowerChar (lowerChar c) = lowerChar c := by
  by_cases h : 'A' ≤ c ∧ c ≤ 'Z'
  · exact lowerChar_lower (lowerChar_shift h)
  · have he : lowerChar c = c := by unfold lowerChar; rw [if_neg h]
    rw [he, he]

theorem lowerChar_eq_nonletter {c c' : Char}
    (hc' : ¬(97 ≤ c'.toNat ∧ c'.toNat ≤ 122))
    (h : lowerChar c = c') : c = c' := by
  by_cases hu : 'A' ≤ c ∧ c ≤ 'Z'
  · exact absurd (h ▸ lowerChar_shift hu) hc'
  · rw [← h]
    unfold lowerChar
    rw [if_neg hu]

theorem lowerStr_of_fixed {s : List Char}
    (h : ∀ c ∈ s, lowerChar c = c) : lowerStr s = s := by
  unfold lowerStr
  exact List.map_congr_left h |>.trans (List.map_id s)

theorem mem_lowerStr {c : Char} {s : List Char} (h : c ∈ lowerStr s) :
    ∃ c₀ ∈ s, lowerChar c₀ = c := by
  unfold lowerStr at h
  obtain ⟨c₀, hc₀, he⟩ := List.mem_map.mp h
  exact ⟨c₀, hc₀, he⟩

theorem mem_replaceChar {a b c : Char} {s : List Char}
    (h : c ∈ replaceChar a b s) : c = b ∨ (c ∈ s ∧ c ≠ a) := by
  unfold replaceChar at h
  obtain ⟨c₀, hc₀, he⟩ := List.mem_map.mp h
  by_cases hca : c₀ = a
  · rw [if_pos hca] at he
    exact Or.inl he.symm
  · rw [if_neg hca] at he
    exact Or.inr ⟨he ▸ hc₀, he ▸ hca⟩

theorem replaceChar_of_not_mem {a b : Char} {s : List Char} (h : a ∉ s) :
    replaceChar a b s = s := by
  unfold replaceChar
  refine (List.map_congr_left ?_).trans (List.map_id s)
  intro c hc
  have hne : c ≠ a := fun he => h (he ▸ hc)
  rw [if_neg hne]
  rfl

theorem isDigitChar_toNat {c : Char} (h : isDigitChar c = true) :
    48 ≤ c.toNat ∧ c.toNat ≤ 57 := by
  unfold isDigitChar at h
  rw [decide_eq_true_iff] at h
  obtain ⟨h1, h2⟩ := h
  rw [Char.le_def] at h1 h2
  exact ⟨by exact_mod_cast h1, by exact_mod_cast h2⟩

theorem numChar_classes {c : Char}
    (h : c = '-' ∨ c = '.' ∨ isDigitChar c = true) :
    isPyWhitespace c = false ∧ c ≠ ',' ∧ c ≠ '\x22' ∧ c ≠ '\r'
      ∧ c ≠ '\n' ∧ c ≠ '\t' := by
  rcases h with h | h | h
  · subst h; exact ⟨by decide, by decide, by decide, by decide, by decide,
      by decide⟩
  · subst h; exact ⟨by decide, by decide, by decide, by decide, by decide,
      by decide⟩
  · have hb := isDigitChar_toNat h
    have htn : ∀ c' : Char, c = c' → c.toNat = c'.toNat := by
      intro c' he; rw [he]
    refine ⟨?_, ?_, ?_, ?_, ?_, ?_⟩
    · cases hw : isPyWhitespace c
      · rfl
      · exfalso
        unfold isPyWhitespace at hw
        rw [decide_eq_true_iff] at hw
        rcases hw with h2 | h2 | h2 | h2 | h2 | h2 <;>
          · have := htn _ h2; revert this; simp; omega
    · intro h2; have := htn _ h2; revert this; simp; omega
    · intro h2; have := htn _ h2; revert this; simp; omega
    · intro h2; have := htn _ h2; revert this; simp; omega
    · intro h2; have := htn _ h2; revert this; simp; omega
    · intro h2; have := htn _ h2; revert this; simp; omega

theorem ratToDecStr_chars (q : ℚ) :
    ∀ c ∈ ratToDecStr q, c = '-' ∨ c = '.' ∨ isDigitChar c = true := by
  intro c hc
  unfold ratToDecStr at hc
  by_cases h5 : (stripP 5 (stripP 2 q.den q.den).2 (stripP 2 q.den q.den).2).2
      = 1
  · rw [if_pos h5] at hc
    simp only [List.mem_append, List.mem_cons] at hc
    obtain ⟨hd1, hdig1, _, _⟩ := natToDigits_spec
      ((q.num.natAbs * (2 ^ (max (max (stripP 2 q.den q.den).1
        (stripP 5 (stripP 2 q.den q.den).2 (stripP 2 q.den q.den).2).1) 1
        - (stripP 2 q.den q.den).1) * 5 ^ (max (max (stripP 2 q.den q.den).1
        (stripP 5 (stripP 2 q.den q.den).2 (stripP 2 q.den q.den).2).1) 1
        - (stripP 5 (stripP 2 q.den q.den).2 (stripP 2 q.den q.den).2).1)))
        / 10 ^ (max (max (stripP 2 q.den q.den).1
        (stripP 5 (stripP 2 q.den q.den).2 (stripP 2 q.den q.den).2).1) 1))
    obtain ⟨hd2, hdig2, _, _⟩ := natToDigits_spec
      ((q.num.natAbs * (2 ^ (max (max (stripP 2 q.den q.den).1
        (stripP 5 (stripP 2 q.den q.den).2 (stripP 2 q.den q.den).2).1) 1
        - (stripP 2 q.den q.den).1) * 5 ^ (max (max (stripP 2 q.den q.den).1
        (stripP 5 (stripP 2 q.den q.den).2 (stripP 2 q.den q.den).2).1) 1
        - (stripP 5 (stripP 2 q.den q.den).2 (stripP 2 q.den q.den).2).1)))
        % 10 ^ (max (max (stripP 2 q.den q.den).1
        (stripP 5 (stripP 2 q.den q.den).2 (stripP 2 q.den q.den).2).1) 1))
    rcases hc with hc | hc
    · rcases hc with hc | hc
      · by_cases hn : q.num < 0
        · rw [if_pos hn] at hc
          simp at hc
          exact Or.inl hc
        · rw [if_neg hn] at hc
          simp at hc
      · exact Or.inr (Or.inr (hdig1 c hc))
    · rcases hc with hc | hc
      · exact Or.inr (Or.inl hc)
      · unfold padZeros at hc
        rcases List.mem_append.mp hc with hc | hc
        · have := List.eq_of_mem_replicate hc
          subst this
          exact Or.inr (Or.inr (by decide))
        · exact Or.inr (Or.inr (hdig2 c hc))
  · rw [if_neg h5] at hc
    simp at hc
    subst hc
    exact Or.inr (Or.inr (by decide))

theorem lookup_eq_some_mem {α β : Type} [BEq α] [LawfulBEq α]
    {l : List (α × β)} {k : α} {v : β}
    (h : List.lookup k l = some v) : (k, v) ∈ l := by
  induction l with
  | nil => simp at h
  | cons p t ih =>
    rw [List.lookup_cons] at h
    cases hbeq : k == p.1 with
    | true =>
      rw [hbeq] at h
      cases h
      have hk : k = p.1 := eq_of_beq hbeq
      rw [hk]
      exact List.mem_cons_self p t
    | false =>
      rw [hbeq] at h
      exact List.mem_cons_of_mem p (ih h)

theorem lookup_eq_none_forall {α β : Type} [BEq α] [LawfulBEq α]
    {l : List (α × β)} {k : α}
    (h : ∀ p ∈ l, p.1 ≠ k) : List.lookup k l = none := by
  induction l with
  | nil => rfl
  | cons p t ih =>
    rw [List.lookup_cons]
    cases hbeq : k == p.1 with
    | true => exact absurd (eq_of_beq hbeq).symm (h p (List.mem_cons_self p t))
    | false =>
      exact ih (fun q hq => h q (List.mem_cons_of_mem p hq))

theorem map_eq_self_forall {α : Type} {f : α → α} :
    ∀ {l : List α}, l.map f = l → ∀ c ∈ l, f c = c := by
  intro l
  induction l with
  | nil => intro _ c hc; cases hc
  | cons a t ih =>
    intro h c hc
    rw [List.map_cons] at h
    injection h with h1 h2
    rcases List.mem_cons.mp hc with hc | hc
    · rw [hc]; exact h1
    · exact ih h2 c hc

theorem getLast?_map {α β : Type} (f : α → β) (l : List α) :
    (l.map f).getLast? = l.getLast?.map f := by
  rw [← List.head?_reverse, ← List.map_reverse, List.head?_map,
      List.head?_reverse]

theorem pyStrip_self_last {s : List Char} (h : pyStrip s = s) :
    ∀ c, s.getLast? = some c → isPyWhitespace c = false := by
  intro c hc
  rcases List.eq_nil_or_concat s with hs | ⟨L, a, hs⟩
  · rw [hs] at hc; simp at hc
  · rw [List.concat_eq_append] at hs
    rw [hs, List.getLast?_append_of_ne_nil L (by simp)] at hc
    simp at hc
    by_contra hcon
    have hw : isPyWhitespace a = true := by
      rw [hc]
      cases hw2 : isPyWhitespace c
      · exact absurd hw2 hcon
      · rfl
    rw [hs, pyStrip_append_ws (by intro x hx; simp at hx; rw [hx, hw])] at h
    have hlen := congrArg List.length h
    have := length_pyStrip_le L
    simp at hlen
    omega

theorem pyStrip_replaceChar_fix {cl : List Char} (h : pyStrip cl = cl) :
    pyStrip (replaceChar ' ' '_' cl) = replaceChar ' ' '_' cl := by
  have hg : ∀ c, isPyWhitespace c = false →
      (if c = ' ' then '_' else c) = c := by
    intro c hcw
    rw [if_neg]
    intro he
    rw [he] at hcw
    exact absurd hcw (by decide)
  apply pyStrip_eq_self
  · intro c hc
    unfold replaceChar at hc
    rw [List.head?_map] at hc
    cases hh : cl.head? with
    | none => rw [hh] at hc; simp at hc
    | some c₀ =>
      rw [hh] at hc
      rw [Option.map_some'] at hc
      injection hc with hc
      have hc₀ := pyStrip_self_head h c₀ hh
      rw [hg c₀ hc₀] at hc
      rw [← hc]
      exact hc₀
  · intro c hc
    unfold replaceChar at hc
    rw [getLast?_map] at hc
    cases hh : cl.getLast? with
    | none => rw [hh] at hc; simp at hc
    | some c₀ =>
      rw [hh] at hc
      rw [Option.map_some'] at hc
      injection hc with hc
      have hc₀ := pyStrip_self_last h c₀ hh
      rw [hg c₀ hc₀] at hc
      rw [← hc]
      exact hc₀

theorem columnMap_values_good :
    ∀ p ∈ columnMap, pyStrip p.2 = p.2 ∧ lowerStr p.2 = p.2
      ∧ mapColumn p.2 = p.2 ∧ '\n' ∉ p.2 := by
  decide

theorem columnMap_keys_no_underscore : ∀ p ∈ columnMap, '_' ∉ p.1 := by
  decide

theorem mapColumn_good (x : List Char) :
    pyStrip (mapColumn x) = mapColumn x ∧ lowerStr (mapColumn x) = mapColumn x
      ∧ mapColumn (mapColumn x) = mapColumn x := by
  unfold mapColumn
  have hcl_strip : pyStrip (pyStrip (lowerStr x)) = pyStrip (lowerStr x) :=
    pyStrip_idem _
  have hcl_low : lowerStr (pyStrip (lowerStr x)) = pyStrip (lowerStr x) := by
    apply lowerStr_of_fixed
    intro c hc
    obtain ⟨c₀, _, he⟩ := mem_lowerStr (mem_pyStrip hc)
    rw [← he]
    exact lowerChar_lowerChar c₀
  cases hlk : List.lookup (pyStrip (lowerStr x)) columnMap with
  | some v =>
    simp only [hlk]
    have hv := columnMap_values_good _ (lookup_eq_some_mem hlk)
    exact ⟨hv.1, hv.2.1, hv.2.2.1⟩
  | none =>
    simp only [hlk]
    have hstrip : pyStrip (replaceChar ' ' '_' (pyStrip (lowerStr x)))
        = replaceChar ' ' '_' (pyStrip (lowerStr x)) :=
      pyStrip_replaceChar_fix hcl_strip
    have hlow : lowerStr (replaceChar ' ' '_' (pyStrip (lowerStr x)))
        = replaceChar ' ' '_' (pyStrip (lowerStr x)) := by
      apply lowerStr_of_fixed
      intro c hc
      rcases mem_replaceChar hc with hc2 | ⟨hc2, _⟩
      · rw [hc2]; decide
      · obtain ⟨c₀, _, he⟩ := mem_lowerStr (mem_pyStrip hc2)
        rw [← he]
        exact lowerChar_lowerChar c₀
    refine ⟨hstrip, hlow, ?_⟩
    rw [hlow, hstrip]
    have hlk2 : List.lookup (replaceChar ' ' '_' (pyStrip (lowerStr x)))
        columnMap = none := by
      by_cases hsp : ' ' ∈ pyStrip (lowerStr x)
      · apply lookup_eq_none_forall
        intro p hp he
        have hu : '_' ∈ replaceChar ' ' '_' (pyStrip (lowerStr x)) := by
          unfold replaceChar
          have := List.mem_map_of_mem
            (fun c => if c = ' ' then '_' else c) hsp
          simpa using this
        rw [← he] at hu
        exact columnMap_keys_no_underscore p hp hu
      · rw [replaceChar_of_not_mem hsp]
        exact hlk
    rw [hlk2]
    show replaceChar ' ' '_' (replaceChar ' ' '_' (pyStrip (lowerStr x)))
        = replaceChar ' ' '_' (pyStrip (lowerStr x))
    rw [replaceChar_of_not_mem]
    intro hsp
    rcases mem_replaceChar hsp with hc2 | ⟨_, hc2⟩
    · exact absurd hc2.symm (by decide)
    · exact hc2 rfl

theorem mapColumn_no_newline {x : List Char} (hx : '\n' ∉ x) :
    '\n' ∉ mapColumn x := by
  unfold mapColumn
  cases hlk : List.lookup (pyStrip (lowerStr x)) columnMap with
  | some v =>
    simp only [hlk]
    exact (columnMap_values_good _ (lookup_eq_some_mem hlk)).2.2.2
  | none =>
    simp only [hlk]
    intro hmem
    rcases mem_replaceChar hmem with hc2 | ⟨hc2, _⟩
    · exact absurd hc2.symm (by decide)
    · obtain ⟨c₀, hc₀, he⟩ := mem_lowerStr (mem_pyStrip hc2)
      have : c₀ = '\n' := lowerChar_eq_nonletter (by decide) he
      exact hx (this ▸ hc₀)

theorem lookup_append (k : List Char) :
    ∀ (l₁ l₂ : Rec),
      List.lookup k (l₁ ++ l₂) = (List.lookup k l₁).or (List.lookup k l₂) := by
  intro l₁ l₂
  induction l₁ with
  | nil => rfl
  | cons p t ih =>
    rw [List.cons_append, List.lookup_cons, List.lookup_cons]
    cases hbeq : k == p.1 with
    | true => rfl
    | false => exact ih

theorem lookup_map_replace (k : List Char) (v : ℚ) :
    ∀ d : Rec, d.any (fun p => p.1 = k) = true →
      List.lookup k (d.map fun p => if p.1 = k then (p.1, v) else p)
        = some v := by
  intro d
  induction d with
  | nil => intro h; simp at h
  | cons p t ih =>
    intro h
    by_cases hp : p.1 = k
    · rw [List.map_cons, if_pos hp, List.lookup_cons]
      have : (k == p.1) = true := by
        rw [beq_iff_eq]
        exact hp.symm
      rw [this]
    · rw [List.map_cons, if_neg hp, List.lookup_cons]
      have hbeq : (k == p.1) = false := by
        rw [beq_eq_false_iff_ne]
        exact fun he => hp he.symm
      rw [hbeq]
      apply ih
      rw [List.any_cons] at h
      rcases Bool.or_eq_true_iff.mp h with h2 | h2
      · exact absurd (by simpa using h2) hp
      · exact h2

theorem lookup_map_replace_ne (k k' : List Char) (v : ℚ) (hne : k ≠ k') :
    ∀ d : Rec,
      List.lookup k (d.map fun p => if p.1 = k' then (p.1, v) else p)
        = List.lookup k d := by
  intro d
  induction d with
  | nil => rfl
  | cons p t ih =>
    rw [List.map_cons, List.lookup_cons]
    by_cases hp : p.1 = k'
    · rw [if_pos hp]
      have hbeq : (k == p.1) = false := by
        rw [beq_eq_false_iff_ne]
        intro he
        exact hne (he.trans hp)
      rw [List.lookup_cons, hbeq]
      exact ih
    · rw [if_neg hp, List.lookup_cons]
      cases hbeq : k == p.1 with
      | true => rfl
      | false => exact ih

theorem recGet_dictInsert_self (d : Rec) (k : List Char) (v : ℚ) :
    recGet (dictInsert d k v) k = some v := by
  unfold recGet dictInsert
  by_cases h : d.any (fun p => p.1 = k)
  · rw [if_pos h]
    exact lookup_map_replace k v d h
  · rw [if_neg h]
    rw [lookup_append]
    have hd : List.lookup k d = none := by
      apply lookup_eq_none_forall
      intro p hp he
      rw [List.any_eq_true] at h
      exact h ⟨p, hp, by simp [he]⟩
    rw [hd]
    show List.lookup k [(k, v)] = some v
    rw [List.lookup_cons]
    have : (k == k) = true := by rw [beq_iff_eq]
    rw [this]

theorem recGet_dictInsert_ne (d : Rec) (k k' : List Char) (v : ℚ)
    (hne : k ≠ k') :
    recGet (dictInsert d k' v) k = recGet d k := by
  unfold recGet dictInsert
  by_cases h : d.any (fun p => p.1 = k')
  · rw [if_pos h]
    exact lookup_map_replace_ne k k' v hne d
  · rw [if_neg h]
    rw [lookup_append]
    have h1 : List.lookup k [(k', v)] = none := by
      rw [List.lookup_cons]
      have hbeq : (k == k') = false := by
        rw [beq_eq_false_iff_ne]
        exact hne
      rw [hbeq]
      rfl
    rw [h1]
    cases List.lookup k d
    · rfl
    · rfl

theorem foldl_dictInsert_lookup (f : List Char → ℚ) :
    ∀ (ks : List (List Char)) (d : Rec) (k : List Char),
      (k ∈ ks ∨ recGet d k = some (f k)) →
      recGet (ks.foldl (fun acc k' => dictInsert acc k' (f k')) d) k
        = some (f k) := by
  intro ks
  induction ks with
  | nil =>
    intro d k h
    rcases h with h | h
    · cases h
    · exact h
  | cons k' ks' ih =>
    intro d k h
    rw [List.foldl_cons]
    apply ih
    rcases h with h | h
    · rcases List.mem_cons.mp h with h2 | h2
      · right
        rw [h2]
        exact recGet_dictInsert_self d k' (f k')
      · exact Or.inl h2
    · by_cases hk : k = k'
      · right
        rw [hk]
        exact recGet_dictInsert_self d k' (f k')
      · right
        rw [recGet_dictInsert_ne d k k' (f k') hk]
        exact h

theorem pyDict_zip_lookup (f : List Char → ℚ) (ks : List (List Char))
    (k : List Char) (h : k ∈ ks) :
    recGetD (pyDict (ks.zip (ks.map f))) k 0 = f k := by
  have hz : ∀ l : List (List Char), l.zip (l.map f) = l.map (fun a => (a, f a)) := by
    intro l
    induction l with
    | nil => rfl
    | cons a t ih =>
      rw [List.map_cons, List.zip_cons_cons, ih, List.map_cons]
  rw [hz]
  unfold pyDict
  rw [List.foldl_map]
  have hget : recGet (ks.foldl (fun acc k' => dictInsert acc k' (f k')) []) k
      = some (f k) := foldl_dictInsert_lookup f ks [] k (Or.inl h)
  unfold recGetD
  unfold recGet at hget
  rw [hget]

theorem snd_mem_dictInsert {d : Rec} {k : List Char} {v w : ℚ}
    (h : w ∈ (dictInsert d k v).map Prod.snd) :
    w = v ∨ w ∈ d.map Prod.snd := by
  unfold dictInsert at h
  by_cases hc : d.any (fun p => p.1 = k)
  · rw [if_pos hc] at h
    obtain ⟨x, hx, he⟩ := List.mem_map.mp h
    obtain ⟨p, hp, he2⟩ := List.mem_map.mp hx
    by_cases hpk : p.1 = k
    · rw [if_pos hpk] at he2
      left
      rw [← he, ← he2]
    · rw [if_neg hpk] at he2
      right
      rw [← he, ← he2]
      exact List.mem_map_of_mem Prod.snd hp
  · rw [if_neg hc] at h
    rw [List.map_append] at h
    rcases List.mem_append.mp h with h2 | h2
    · exact Or.inr h2
    · left
      simpa using h2

theorem snd_mem_pyDict_aux :
    ∀ (l : List (List Char × ℚ)) (d : Rec) (w : ℚ),
      w ∈ (l.foldl (fun d p => dictInsert d p.1 p.2) d).map Prod.snd →
      w ∈ d.map Prod.snd ∨ w ∈ l.map Prod.snd := by
  intro l
  induction l with
  | nil => intro d w h; exact Or.inl h
  | cons p t ih =>
    intro d w h
    rw [List.foldl_cons] at h
    rcases ih (dictInsert d p.1 p.2) w h with h2 | h2
    · rcases snd_mem_dictInsert h2 with h3 | h3
      · right
        rw [List.map_cons, h3]
        exact List.mem_cons_self _ _
      · exact Or.inl h3
    · right
      rw [List.map_cons]
      exact List.mem_cons_of_mem _ h2

theorem snd_mem_pyDict {l : List (List Char × ℚ)} {w : ℚ}
    (h : w ∈ (pyDict l).map Prod.snd) : w ∈ l.map Prod.snd := by
  rcases snd_mem_pyDict_aux l [] w h with h2 | h2
  · cases h2
  · exact h2

theorem den_div_pow_ten (z : ℤ) (k : Nat) :
    ∃ a b : Nat, (((z : ℚ)) / 10 ^ k).den = 2 ^ a * 5 ^ b := by
  have hd : (((z : ℚ)) / 10 ^ k) = Rat.divInt z (10 ^ k) := by
    rw [Rat.divInt_eq_div]
    push_cast
    rfl
  have hdvd : ((Rat.divInt z (10 ^ k)).den : ℤ) ∣ ((10 : ℤ) ^ k) :=
    Rat.den_dvd z (10 ^ k)
  have hn : (Rat.divInt z ((10 : ℤ) ^ k)).den ∣ 10 ^ k := by
    exact_mod_cast hdvd
  rw [hd]
  have h10 : (10 : ℕ) ^ k = 2 ^ k * 5 ^ k := by
    rw [← Nat.mul_pow]
  exact dvd_two_five (h10 ▸ hn)

theorem div_pow_mul_zpow (z : ℤ) (k : Nat) (i : ℤ) :
    ∃ z' : ℤ, ∃ k' : Nat, ((z : ℚ) / 10 ^ k) * (10 : ℚ) ^ i
      = (z' : ℚ) / 10 ^ k' := by
  obtain ⟨n, hn | hn⟩ := Int.eq_nat_or_neg i
  · refine ⟨z * 10 ^ n, k, ?_⟩
    rw [hn, zpow_natCast]
    push_cast
    ring
  · refine ⟨z, k + n, ?_⟩
    rw [hn, zpow_neg, zpow_natCast, pow_add]
    ring

theorem parseExpPart_den {base : ℚ} {t : List Char} {q : ℚ}
    (hbase : ∃ z : ℤ, ∃ k : Nat, base = (z : ℚ) / 10 ^ k)
    (h : parseExpPart base t = some q) :
    ∃ z : ℤ, ∃ k : Nat, q = (z : ℚ) / 10 ^ k := by
  obtain ⟨z, k, hzk⟩ := hbase
  simp only [parseExpPart] at h
  split at h
  · injection h with h
    rw [← h, hzk]
    exact div_pow_mul_zpow z k _
  · exact absurd h (by simp)

theorem parseAfterMantissa_den {sgn : ℤ} {ip fp rest : List Char} {q : ℚ}
    (h : parseAfterMantissa sgn ip fp rest = some q) :
    ∃ z : ℤ, ∃ k : Nat, q = (z : ℚ) / 10 ^ k := by
  have hbase : (sgn : ℚ)
        * ((digitsVal ip : ℚ) * 10 ^ fp.length + (digitsVal fp : ℚ))
        / 10 ^ fp.length
      = ((sgn * ((digitsVal ip : ℤ) * 10 ^ fp.length + (digitsVal fp : ℤ))
          : ℤ) : ℚ) / 10 ^ fp.length := by
    push_cast
    ring
  simp only [parseAfterMantissa] at h
  split at h
  · injection h with h
    exact ⟨_, fp.length, by rw [← h]; exact hbase⟩
  · exact parseExpPart_den ⟨_, fp.length, hbase⟩ h
  · exact parseExpPart_den ⟨_, fp.length, hbase⟩ h
  · exact absurd h (by simp)

theorem pyFloat_den {s : List Char} {q : ℚ} (h : pyFloat s = some q) :
    ∃ a b : Nat, q.den = 2 ^ a * 5 ^ b := by
  simp only [pyFloat] at h
  obtain ⟨z, k, hzk⟩ : ∃ z : ℤ, ∃ k : Nat, q = (z : ℚ) / 10 ^ k := by
    split at h
    · split at h
      · exact absurd h (by simp)
      · exact parseAfterMantissa_den h
    · split at h
      · exact absurd h (by simp)
      · exact parseAfterMantissa_den h
  rw [hzk]
  exact den_div_pow_ten z k

theorem fieldValue_den (v : List Char) :
    ∃ a b : Nat, (fieldValue v).den = 2 ^ a * 5 ^ b := by
  unfold fieldValue
  cases hp : pyFloat (pyStripQuote (pyStrip v)) with
  | none => exact ⟨0, 0, by norm_num⟩
  | some x =>
    simp only [hp]
    exact pyFloat_den hp

theorem recGetD_pyDict_den {l : List (List Char × ℚ)}
    (hl : ∀ w ∈ l.map Prod.snd, ∃ a b : Nat, w.den = 2 ^ a * 5 ^ b)
    (ch : List Char) :
    ∃ a b : Nat, (recGetD (pyDict l) ch 0).den = 2 ^ a * 5 ^ b := by
  unfold recGetD
  cases hk : List.lookup ch (pyDict l) with
  | none => exact ⟨0, 0, by norm_num⟩
  | some w =>
    apply hl
    apply snd_mem_pyDict
    exact List.mem_map_of_mem Prod.snd (lookup_eq_some_mem hk)

theorem fieldValue_append_ws {g t : List Char}
    (h : ∀ c ∈ t, isPyWhitespace c = true) :
    fieldValue (g ++ t) = fieldValue g := by
  unfold fieldValue
  rw [pyStrip_append_ws h]

theorem fieldValue_ratToDecStr (v : ℚ)
    (hden : ∃ a b : Nat, v.den = 2 ^ a * 5 ^ b) :
    fieldValue (ratToDecStr v) = v := by
  unfold fieldValue
  have hchars := ratToDecStr_chars v
  have hstrip : pyStrip (ratToDecStr v) = ratToDecStr v := by
    apply pyStrip_eq_self
    · intro c hc
      have hm : c ∈ ratToDecStr v :=
        List.mem_of_mem_head? (by rw [hc]; exact rfl)
      exact (numChar_classes (hchars c hm)).1
    · intro c hc
      have hm : c ∈ ratToDecStr v :=
        List.mem_of_mem_getLast? (by rw [hc]; exact rfl)
      exact (numChar_classes (hchars c hm)).1
  rw [hstrip]
  have hquote : pyStripQuote (ratToDecStr v) = ratToDecStr v := by
    apply pyStripQuote_eq_self
    intro hm
    exact (numChar_classes (hchars _ hm)).2.2.1 rfl
  rw [hquote, ratToDecStr_spec v hden]

theorem ratToDecStr_ne_nil (v : ℚ) : ratToDecStr v ≠ [] := by
  unfold ratToDecStr
  by_cases h5 : (stripP 5 (stripP 2 v.den v.den).2 (stripP 2 v.den v.den).2).2
      = 1
  · rw [if_pos h5]
    simp
  · rw [if_neg h5]
    simp

theorem splitOnChar_ne_nil (sep : Char) : ∀ l : List Char,
    splitOnChar sep l ≠ [] := by
  intro l
  cases l with
  | nil => simp [splitOnChar]
  | cons c t =>
    unfold splitOnChar
    by_cases hc : c = sep
    · rw [if_pos hc]
      simp
    · rw [if_neg hc]
      cases splitOnChar sep t with
      | nil => simp
      | cons cur rs => simp

theorem mem_splitOnChar {sep c : Char} :
    ∀ {l p : List Char}, p ∈ splitOnChar sep l → c ∈ p →
      c ∈ l ∧ c ≠ sep := by
  intro l
  induction l with
  | nil =>
    intro p hp hc
    simp [splitOnChar] at hp
    rw [hp] at hc
    cases hc
  | cons a t ih =>
    intro p hp hc
    unfold splitOnChar at hp
    by_cases ha : a = sep
    · rw [if_pos ha] at hp
      rcases List.mem_cons.mp hp with hp2 | hp2
      · rw [hp2] at hc
        cases hc
      · have := ih hp2 hc
        exact ⟨List.mem_cons_of_mem a this.1, this.2⟩
    · rw [if_neg ha] at hp
      cases hsp : splitOnChar sep t with
      | nil =>
        rw [hsp] at hp
        rcases List.mem_cons.mp hp with hp2 | hp2
        · rw [hp2] at hc
          rcases List.mem_cons.mp hc with hc2 | hc2
          · exact ⟨by rw [hc2]; exact List.mem_cons_self a t,
              by rw [hc2]; exact ha⟩
          · cases hc2
        · cases hp2
      | cons cur rs =>
        rw [hsp] at hp
        rcases List.mem_cons.mp hp with hp2 | hp2
        · rw [hp2] at hc
          rcases List.mem_cons.mp hc with hc2 | hc2
          · exact ⟨by rw [hc2]; exact List.mem_cons_self a t,
              by rw [hc2]; exact ha⟩
          · have := ih (by rw [hsp]; exact List.mem_cons_self cur rs) hc2
            exact ⟨List.mem_cons_of_mem a this.1, this.2⟩
        · have := ih (by rw [hsp]; exact List.mem_cons_of_mem cur hp2) hc
          exact ⟨List.mem_cons_of_mem a this.1, this.2⟩

theorem intercalate_getLast_prop (P : Char → Prop) (sep : Char)
    (hsep : P sep) :
    ∀ ps : List (List Char),
      (∀ p ∈ ps, ∀ c, p.getLast? = some c → P c) →
      ∀ c, (List.intercalate [sep] ps).getLast? = some c → P c := by
  intro ps
  induction ps with
  | nil =>
    intro _ c hc
    simp [List.intercalate] at hc
  | cons a ps' ih =>
    intro hp c hc
    cases ps' with
    | nil =>
      rw [intercalate_singleton] at hc
      exact hp a (List.mem_cons_self _ _) c hc
    | cons b r =>
      rw [intercalate_cons₂, List.append_assoc,
        List.getLast?_append_of_ne_nil a (by simp)] at hc
      cases hX : List.intercalate [sep] (b :: r) with
      | nil =>
        rw [hX] at hc
        simp at hc
        rw [← hc]
        exact hsep
      | cons x xs =>
        rw [hX, List.getLast?_append_of_ne_nil [sep] (by simp)] at hc
        rw [← hX] at hc
        exact ih (fun q hq => hp q (List.mem_cons_of_mem a hq)) c hc

theorem intercalate_head_multi (x b : List Char) (r : List (List Char)) :
    ∃ c, (List.intercalate [','] (x :: b :: r)).head? = some c
      ∧ (x.head? = some c ∨ (x = [] ∧ c = ',')) := by
  rw [intercalate_cons₂]
  cases x with
  | nil => exact ⟨',', rfl, Or.inr ⟨rfl, rfl⟩⟩
  | cons c₀ t => exact ⟨c₀, rfl, Or.inl rfl⟩

theorem csvQuoteField_eq_self {f : List Char} (h : csvNeedsQuote f = false) :
    csvQuoteField f = f := by
  unfold csvQuoteField
  rw [h]
  simp

theorem csvNeedsQuote_eq_false {f : List Char}
    (h : ∀ c ∈ f, c ≠ ',' ∧ c ≠ '\x22' ∧ c ≠ '\r' ∧ c ≠ '\n') :
    csvNeedsQuote f = false := by
  unfold csvNeedsQuote
  rw [List.any_eq_false]
  intro c hc
  obtain ⟨h1, h2, h3, h4⟩ := h c hc
  simp only [decide_eq_true_eq]
  intro hcon
  rcases hcon with hcon | hcon | hcon | hcon
  · exact h1 hcon
  · exact h2 hcon
  · exact h3 hcon
  · exact h4 hcon

theorem csvQuoteField_ratToDecStr (v : ℚ) :
    csvQuoteField (ratToDecStr v) = ratToDecStr v := by
  apply csvQuoteField_eq_self
  apply csvNeedsQuote_eq_false
  intro c hc
  obtain ⟨-, h2, h3, h4, h5, -⟩ := numChar_classes (ratToDecStr_chars v c hc)
  exact ⟨h2, h3, h4, h5⟩

theorem to_csv_eq_crlfJoin (dl : SniperDatalog) (hrs : dl.records ≠ [])
    (hnq : ∀ ch ∈ dl.channels, csvQuoteField ch = ch) :
    to_csv dl = crlfJoin (List.intercalate [','] dl.channels
      :: dl.records.map (rowBodyOf dl.channels)) := by
  unfold to_csv
  rw [if_neg hrs]
  rw [crlfJoin_cons]
  have hhead : csvRow dl.channels
      = List.intercalate [','] dl.channels ++ ['\r', '\n'] := by
    unfold csvRow
    rw [List.map_congr_left hnq, List.map_id']
  rw [hhead]
  have hrow : ∀ r : Rec,
      csvRow (dl.channels.map (fun ch => ratToDecStr (recGetD r ch 0)))
        = rowBodyOf dl.channels r ++ ['\r', '\n'] := by
    intro r
    unfold csvRow rowBodyOf numFieldsOf
    congr 1
    congr 1
    rw [List.map_map]
    apply List.map_congr_left
    intro ch _
    exact csvQuoteField_ratToDecStr (recGetD r ch 0)
  have hflat : (dl.records.map (fun r =>
        csvRow (dl.channels.map (fun ch => ratToDecStr (recGetD r ch 0))))).flatten
      = crlfJoin (dl.records.map (rowBodyOf dl.channels)) := by
    unfold crlfJoin
    rw [List.map_map]
    congr 1
    apply List.map_congr_left
    intro r _
    exact hrow r
  rw [hflat]
  simp

theorem filterMap_linesOf (fn : List Char → Option Rec) (B : Rec → List Char)
    (R : Rec → Rec) :
    ∀ rs : List Rec, rs ≠ [] →
      (∀ r ∈ rs, ∀ t : List Char, t = [] ∨ t = ['\r'] →
        fn (B r ++ t) = some (R r)) →
      (linesOf (rs.map B)).filterMap fn = rs.map R := by
  intro rs
  induction rs with
  | nil => intro h; exact absurd rfl h
  | cons r rs' ih =>
    intro _ hfn
    cases rs' with
    | nil =>
      show List.filterMap fn [B r] = [R r]
      have h1 := hfn r (List.mem_cons_self _ _) [] (Or.inl rfl)
      rw [List.append_nil] at h1
      simp [List.filterMap_cons, h1]
    | cons r₂ rs'' =>
      rw [List.map_cons, linesOf_cons _ _ (by simp)]
      rw [List.filterMap_cons]
      have h1 := hfn r (List.mem_cons_self _ _) ['\r'] (Or.inr rfl)
      rw [h1]
      show R r :: List.filterMap fn (linesOf (List.map B (r₂ :: rs'')))
          = List.map R (r :: r₂ :: rs'')
      rw [ih (by simp) (fun q hq t ht => hfn q (List.mem_cons_of_mem r hq) t ht)]
      rfl

theorem parse_channels_inv (text fp : List Char) :
    ∀ ch ∈ (parse_text_datalog text fp).channels,
      pyStrip ch = ch ∧ lowerStr ch = ch ∧ mapColumn ch = ch
        ∧ '\n' ∉ ch := by
  intro ch hch
  simp only [parse_text_datalog] at hch
  cases hlines : splitOnChar '\n' (pyStrip text) with
  | nil =>
    rw [hlines] at hch
    have hch2 : ch ∈ ([] : List (List Char)) := hch
    cases hch2
  | cons header rest =>
    cases rest with
    | nil =>
      rw [hlines] at hch
      have hch2 : ch ∈ ([] : List (List Char)) := hch
      cases hch2
    | cons line1 restLines =>
      rw [hlines] at hch
      have hch2 : ch ∈ ((splitOnChar (if (',') ∈ header then ',' else '\t')
          header).map (fun c => pyStripQuote (pyStrip c))).map mapColumn :=
        hch
      obtain ⟨x, hx, hchx⟩ := List.mem_map.mp hch2
      rw [← hchx]
      have hg := mapColumn_good x
      refine ⟨hg.1, hg.2.1, hg.2.2, ?_⟩
      apply mapColumn_no_newline
      intro hnl
      obtain ⟨part, hpart, hxp⟩ := List.mem_map.mp hx
      rw [← hxp] at hnl
      have h2 : '\n' ∈ part := mem_pyStrip (mem_pyStripQuote hnl)
      have h3 := mem_splitOnChar hpart h2
      have h4 := mem_splitOnChar
        (show header ∈ splitOnChar '\n' (pyStrip text) from by
          rw [hlines]; exact List.mem_cons_self _ _) h3.1
      exact h4.2 rfl

theorem parse_records_den (text fp : List Char) :
    ∀ r ∈ (parse_text_datalog text fp).records, ∀ ch : List Char,
      ∃ a b : Nat, (recGetD r ch 0).den = 2 ^ a * 5 ^ b := by
  intro r hr ch
  simp only [parse_text_datalog] at hr
  cases hlines : splitOnChar '\n' (pyStrip text) with
  | nil =>
    rw [hlines] at hr
    have hr2 : r ∈ ([] : List Rec) := hr
    cases hr2
  | cons header rest =>
    cases rest with
    | nil =>
      rw [hlines] at hr
      have hr2 : r ∈ ([] : List Rec) := hr
      cases hr2
    | cons line1 restLines =>
      rw [hlines] at hr
      have hr2 : r ∈ (line1 :: restLines).filterMap (fun line =>
          if (splitOnChar (if (',') ∈ header then ',' else '\t') line).length
              = (((splitOnChar (if (',') ∈ header then ',' else '\t')
                header).map (fun c => pyStripQuote (pyStrip c))).map
                mapColumn).length then
            some (pyDict (List.zip (((splitOnChar (if (',') ∈ header then ','
              else '\t') header).map (fun c => pyStripQuote (pyStrip c))).map
              mapColumn)
              ((splitOnChar (if (',') ∈ header then ',' else '\t') line).map
                fieldValue)))
          else none) := hr
      obtain ⟨line, hline, hsome⟩ := List.mem_filterMap.mp hr2
      by_cases hlen : (splitOnChar (if (',') ∈ header then ',' else '\t')
          line).length
          = (((splitOnChar (if (',') ∈ header then ',' else '\t')
            header).map (fun c => pyStripQuote (pyStrip c))).map
            mapColumn).length
      · rw [if_pos hlen] at hsome
        injection hsome with hsome
        rw [← hsome]
        apply recGetD_pyDict_den
        intro w hw
        obtain ⟨pr, hpr, hsnd⟩ := List.mem_map.mp hw
        obtain ⟨k, w'⟩ := pr
        have hmem := (List.of_mem_zip hpr).2
        simp only at hsnd
        rw [← hsnd]
        obtain ⟨val, _, hval⟩ := List.mem_map.mp hmem
        rw [← hval]
        exact fieldValue_den val
      · rw [if_neg hlen] at hsome
        simp at hsome

theorem parse_channels_ne_nil (text fp : List Char)
    (h : (parse_text_datalog text fp).records ≠ []) :
    (parse_text_datalog text fp).channels ≠ [] := by
  simp only [parse_text_datalog] at h ⊢
  cases hlines : splitOnChar '\n' (pyStrip text) with
  | nil =>
    rw [hlines] at h
    exact absurd rfl h
  | cons header rest =>
    cases rest with
    | nil =>
      rw [hlines] at h
      exact absurd rfl h
    | cons line1 restLines =>
      obtain ⟨p, ps, hsp⟩ : ∃ p ps, splitOnChar (if (',') ∈ header then ','
          else '\t') header = p :: ps := by
        cases hsp2 : splitOnChar (if (',') ∈ header then ',' else '\t')
            header with
        | nil => exact absurd hsp2 (splitOnChar_ne_nil _ _)
        | cons p ps => exact ⟨p, ps, rfl⟩
      intro hcon
      have hcon2 : List.map mapColumn (List.map (fun c => pyStripQuote
          (pyStrip c)) (splitOnChar (if (',') ∈ header then ',' else '\t')
          header)) = [] := hcon
      rw [hsp] at hcon2
      simp at hcon2

theorem getD_map_lt (f : Rec → Rec) :
    ∀ (l : List Rec) (i : Nat), i < l.length →
      (l.map f).getD i [] = f (l.getD i []) := by
  intro l
  induction l with
  | nil => intro i hi; simp at hi
  | cons r t ih =>
    intro i hi
    cases i with
    | zero => rfl
    | succ j =>
      show (t.map f).getD j [] = f (t.getD j [])
      exact ih j (by simpa using hi)

theorem getD_ge {α : Type} (d : α) :
    ∀ (l : List α) (i : Nat), l.length ≤ i → l.getD i d = d := by
  intro l
  induction l with
  | nil => intro i _; cases i <;> rfl
  | cons a t ih =>
    intro i hi
    cases i with
    | zero => simp at hi
    | succ j => exact ih j (by simpa using hi)

theorem linesOf_ne_nil {bs : List (List Char)} (h : bs ≠ []) :
    linesOf bs ≠ [] := by
  cases bs with
  | nil => exact absurd rfl h
  | cons b t =>
    cases t with
    | nil => simp [linesOf]
    | cons b2 t2 =>
      rw [linesOf_cons b (b2 :: t2) (by simp)]
      simp

set_option maxHeartbeats 2000000 in
theorem csv_round_trip_kernel (dl : SniperDatalog) (fp : List Char)
    (hrs : dl.records ≠ [])
    (hcs : dl.channels ≠ [])
    (hgood : ∀ ch ∈ dl.channels,
      pyStrip ch = ch ∧ lowerStr ch = ch ∧ mapColumn ch = ch ∧ '\n' ∉ ch)
    (hq : ∀ ch ∈ dl.channels, '\x22' ∉ ch ∧ ',' ∉ ch ∧ '\r' ∉ ch)
    (hone : ∀ ch, dl.channels = [ch] → ch ≠ [] ∧ '\t' ∉ ch)
    (hden : ∀ r ∈ dl.records, ∀ ch : List Char,
      ∃ a b : Nat, (recGetD r ch 0).den = 2 ^ a * 5 ^ b) :
    (parse_text_datalog (to_csv dl) fp).channels = dl.channels
    ∧ (parse_text_datalog (to_csv dl) fp).records.length = dl.records.length
    ∧ ∀ (i : Nat) (ch : List Char), ch ∈ dl.channels →
        recGetD ((parse_text_datalog (to_csv dl) fp).records.getD i []) ch 0
          = recGetD (dl.records.getD i []) ch 0 := by
  have hshape : (∃ ch, dl.channels = [ch])
      ∨ (∃ x b2 r2, dl.channels = x :: b2 :: r2) := by
    cases hc : dl.channels with
    | nil => exact absurd hc hcs
    | cons x t =>
      cases t with
      | nil => exact Or.inl ⟨x, rfl⟩
      | cons b2 r2 => exact Or.inr ⟨x, b2, r2, rfl⟩
  have hnq : ∀ ch ∈ dl.channels, csvQuoteField ch = ch := by
    intro ch hch
    apply csvQuoteField_eq_self
    apply csvNeedsQuote_eq_false
    intro c hc
    refine ⟨fun he => (hq ch hch).2.1 (he ▸ hc),
      fun he => (hq ch hch).1 (he ▸ hc),
      fun he => (hq ch hch).2.2 (he ▸ hc),
      fun he => (hgood ch hch).2.2.2 (he ▸ hc)⟩
  have htocsv := to_csv_eq_crlfJoin dl hrs hnq
  have hrsb_ne : dl.records.map (rowBodyOf dl.channels) ≠ [] := by
    cases hrec : dl.records with
    | nil => exact absurd hrec hrs
    | cons r t => simp
  have hrow_nl : ∀ r : Rec, '\n' ∉ rowBodyOf dl.channels r := by
    intro r hm
    unfold rowBodyOf at hm
    rcases mem_intercalate_sep ',' '\n' _ hm with he | ⟨p, hp, hcp⟩
    · exact absurd he (by decide)
    · unfold numFieldsOf at hp
      obtain ⟨ch, _, hpe⟩ := List.mem_map.mp hp
      rw [← hpe] at hcp
      exact (numChar_classes (ratToDecStr_chars _ _ hcp)).2.2.2.2.1 rfl
  have hrow_ne : ∀ r : Rec, rowBodyOf dl.channels r ≠ [] := by
    intro r
    unfold rowBodyOf numFieldsOf
    rcases hshape with ⟨ch, hch⟩ | ⟨x, b2, r2, hch⟩
    · rw [hch, List.map_cons, List.map_nil, intercalate_singleton]
      exact ratToDecStr_ne_nil _
    · rw [hch, List.map_cons, List.map_cons, intercalate_cons₂]
      simp
  have hrow_last : ∀ (r : Rec) (c : Char),
      (rowBodyOf dl.channels r).getLast? = some c
        → isPyWhitespace c = false := by
    intro r c hc
    unfold rowBodyOf at hc
    refine intercalate_getLast_prop (fun c => isPyWhitespace c = false) ','
      (by decide) (numFieldsOf dl.channels r) ?_ c hc
    intro p hp c₂ hc₂
    unfold numFieldsOf at hp
    obtain ⟨ch, _, hpe⟩ := List.mem_map.mp hp
    rw [← hpe] at hc₂
    have hm : c₂ ∈ ratToDecStr (recGetD r ch 0) :=
      List.mem_of_mem_getLast? (by rw [hc₂]; exact rfl)
    exact (numChar_classes (ratToDecStr_chars _ _ hm)).1
  have hhdr_nl : '\n' ∉ List.intercalate [','] dl.channels := by
    intro hm
    rcases mem_intercalate_sep ',' '\n' dl.channels hm with he | ⟨p, hp, hcp⟩
    · exact absurd he (by decide)
    · exact (hgood p hp).2.2.2 hcp
  have hhdr_head : ∃ c, (List.intercalate [','] dl.channels).head? = some c
      ∧ isPyWhitespace c = false := by
    rcases hshape with ⟨ch, hch⟩ | ⟨x, b2, r2, hch⟩
    · obtain ⟨c₀, t, hct⟩ : ∃ c₀ t, ch = c₀ :: t := by
        cases hc2 : ch with
        | nil => exact absurd hc2 (hone ch hch).1
        | cons c₀ t => exact ⟨c₀, t, rfl⟩
      refine ⟨c₀, ?_, ?_⟩
      · rw [hch, intercalate_singleton, hct]
        rfl
      · exact pyStrip_self_head
          (hgood ch (by rw [hch]; exact List.mem_cons_self _ _)).1 c₀
          (by rw [hct]; rfl)
    · obtain ⟨c, hc, hdisj⟩ := intercalate_head_multi x b2 r2
      refine ⟨c, by rw [hch]; exact hc, ?_⟩
      rcases hdisj with hx | ⟨_, hcc⟩
      · exact pyStrip_self_head
          (hgood x (by rw [hch]; exact List.mem_cons_self _ _)).1 c hx
      · rw [hcc]
        decide
  obtain ⟨L, b, hLb⟩ : ∃ L b,
      dl.records.map (rowBodyOf dl.channels) = L ++ [b] := by
    rcases List.eq_nil_or_concat (dl.records.map (rowBodyOf dl.channels))
      with h | ⟨L, b, h⟩
    · exact absurd h hrsb_ne
    · exact ⟨L, b, by rw [h, List.concat_eq_append]⟩
  have hbmem : b ∈ dl.records.map (rowBodyOf dl.channels) := by
    rw [hLb]
    exact List.mem_append_right L (List.mem_cons_self b [])
  obtain ⟨rb, hrb, hbeq⟩ := List.mem_map.mp hbmem
  have hb_ne : b ≠ [] := by
    rw [← hbeq]
    exact hrow_ne rb
  have hb_nl : '\n' ∉ b := by
    rw [← hbeq]
    exact hrow_nl rb
  have hlines : splitOnChar '\n' (pyStrip (to_csv dl))
      = linesOf (List.intercalate [','] dl.channels :: dl.records.map (rowBodyOf dl.channels)) := by
    rw [htocsv, hLb, ← List.cons_append, crlfJoin_concat]
    rw [pyStrip_append_ws (by intro c hc; simp at hc; rcases hc with hc | hc <;>
      (rw [hc]; rfl))]
    rw [pyStrip_eq_self ?hh ?hl]
    · rw [splitOnChar_crlfJoin_append b hb_nl (List.intercalate [','] dl.channels :: L) ?hnl]
      · rw [← linesOf_concat]
      case hnl =>
        intro x hx
        rcases List.mem_cons.mp hx with hx | hx
        · rw [hx]
          exact hhdr_nl
        · have hx2 : x ∈ dl.records.map (rowBodyOf dl.channels) := by
            rw [hLb]
            exact List.mem_append_left [b] hx
          obtain ⟨rx, _, hxe⟩ := List.mem_map.mp hx2
          rw [← hxe]
          exact hrow_nl rx
    case hh =>
      intro c hc
      obtain ⟨c₀, hc₀, hw₀⟩ := hhdr_head
      rw [crlfJoin_cons, List.append_assoc, List.head?_append, hc₀] at hc
      injection hc with hc
      rw [← hc]
      exact hw₀
    case hl =>
      intro c hc
      rw [List.getLast?_append_of_ne_nil _ hb_ne, ← hbeq] at hc
      exact hrow_last rb c hc
  obtain ⟨l₁, rest, hlr⟩ : ∃ l₁ rest,
      linesOf (dl.records.map (rowBodyOf dl.channels)) = l₁ :: rest := by
    cases h : linesOf (dl.records.map (rowBodyOf dl.channels)) with
    | nil => exact absurd h (linesOf_ne_nil hrsb_ne)
    | cons l₁ rest => exact ⟨l₁, rest, rfl⟩
  have hlines2 : splitOnChar '\n' (pyStrip (to_csv dl))
      = (List.intercalate [','] dl.channels ++ ['\r']) :: l₁ :: rest := by
    rw [hlines, linesOf_cons _ _ hrsb_ne, hlr]
  have hsplitH : splitOnChar (if (',') ∈ List.intercalate [','] dl.channels ++ ['\r'] then ',' else '\t') (List.intercalate [','] dl.channels ++ ['\r'])
      = appendToLast ['\r'] dl.channels := by
    rcases hshape with ⟨ch, hch⟩ | ⟨x, b2, r2, hch⟩
    · have hnc : (',') ∉ List.intercalate [','] dl.channels ++ ['\r'] := by
        rw [hch, intercalate_singleton]
        intro hm
        rcases List.mem_append.mp hm with hm | hm
        · exact (hq ch (by rw [hch]; exact List.mem_cons_self _ _)).2.1 hm
        · simp at hm
      rw [if_neg hnc, hch, intercalate_singleton]
      rw [splitOnChar_of_not_mem '\t' _ (by
        intro hm
        rcases List.mem_append.mp hm with hm | hm
        · exact (hone ch hch).2 hm
        · simp at hm)]
      rfl
    · have hin : (',') ∈ List.intercalate [','] dl.channels ++ ['\r'] := by
        rw [hch, intercalate_cons₂]
        simp
      rw [if_pos hin]
      exact splitOnChar_intercalate_append ',' ['\r'] (by decide) dl.channels
        hcs (fun p hp => (hq p hp).2.1)
  have hmapped : (((splitOnChar (if (',') ∈ List.intercalate [','] dl.channels ++ ['\r'] then ',' else '\t') (List.intercalate [','] dl.channels ++ ['\r'])).map (fun c => pyStripQuote (pyStrip c))).map mapColumn) = dl.channels := by
    have hgr : ∀ x, (mapColumn ∘ fun c => pyStripQuote (pyStrip c))
        (x ++ ['\r'])
        = (mapColumn ∘ fun c => pyStripQuote (pyStrip c)) x := by
      intro x
      show mapColumn (pyStripQuote (pyStrip (x ++ ['\r'])))
        = mapColumn (pyStripQuote (pyStrip x))
      rw [pyStrip_append_ws (by intro c hc; simp at hc; rw [hc]; rfl)]
    rw [hsplitH, List.map_map]
    rw [appendToLast_map (mapColumn ∘ fun c => pyStripQuote (pyStrip c))
      ['\r'] hgr dl.channels hcs]
    refine (List.map_congr_left ?_).trans (List.map_id' _)
    intro ch hch
    show mapColumn (pyStripQuote (pyStrip ch)) = ch
    rw [(hgood ch hch).1, pyStripQuote_eq_self (hq ch hch).1,
      (hgood ch hch).2.2.1]
  have hsplitR : ∀ (r : Rec) (t : List Char), t = [] ∨ t = ['\r'] →
      splitOnChar (if (',') ∈ List.intercalate [','] dl.channels ++ ['\r'] then ',' else '\t') (rowBodyOf dl.channels r ++ t)
        = appendToLast t (numFieldsOf dl.channels r) := by
    intro r t ht
    have htc : (',') ∉ t ∧ '\t' ∉ t := by
      rcases ht with h | h <;> (subst h; exact ⟨by decide, by decide⟩)
    rcases hshape with ⟨ch, hch⟩ | ⟨x, b2, r2, hch⟩
    · have hnc : (',') ∉ List.intercalate [','] dl.channels ++ ['\r'] := by
        rw [hch, intercalate_singleton]
        intro hm
        rcases List.mem_append.mp hm with hm | hm
        · exact (hq ch (by rw [hch]; exact List.mem_cons_self _ _)).2.1 hm
        · simp at hm
      rw [if_neg hnc]
      unfold rowBodyOf numFieldsOf
      rw [hch, List.map_cons, List.map_nil, intercalate_singleton]
      rw [splitOnChar_of_not_mem '\t' _ (by
        intro hm
        rcases List.mem_append.mp hm with hm | hm
        · exact (numChar_classes
            (ratToDecStr_chars _ _ hm)).2.2.2.2.2 rfl
        · exact htc.2 hm)]
      rfl
    · have hin : (',') ∈ List.intercalate [','] dl.channels ++ ['\r'] := by
        rw [hch, intercalate_cons₂]
        simp
      rw [if_pos hin]
      unfold rowBodyOf
      apply splitOnChar_intercalate_append ',' t htc.1
        (numFieldsOf dl.channels r)
      · unfold numFieldsOf
        rw [hch]
        simp
      · intro p hp hm
        unfold numFieldsOf at hp
        obtain ⟨ch₂, _, hpe⟩ := List.mem_map.mp hp
        rw [← hpe] at hm
        exact (numChar_classes (ratToDecStr_chars _ _ hm)).2.1 rfl
  have hstep : parse_text_datalog (to_csv dl) fp
      = { mkEmpty (basename fp) with
          channels := ((splitOnChar (if (',') ∈ List.intercalate [','] dl.channels ++ ['\r'] then ',' else '\t') (List.intercalate [','] dl.channels ++ ['\r'])).map (fun c => pyStripQuote (pyStrip c))).map mapColumn,
          records := (l₁ :: rest).filterMap (fun line =>
            if (splitOnChar (if (',') ∈ List.intercalate [','] dl.channels ++ ['\r'] then ',' else '\t') line).length = (((splitOnChar (if (',') ∈ List.intercalate [','] dl.channels ++ ['\r'] then ',' else '\t') (List.intercalate [','] dl.channels ++ ['\r'])).map (fun c => pyStripQuote (pyStrip c))).map mapColumn).length then some (pyDict (List.zip (((splitOnChar (if (',') ∈ List.intercalate [','] dl.channels ++ ['\r'] then ',' else '\t') (List.intercalate [','] dl.channels ++ ['\r'])).map (fun c => pyStripQuote (pyStrip c))).map mapColumn) ((splitOnChar (if (',') ∈ List.intercalate [','] dl.channels ++ ['\r'] then ',' else '\t') line).map fieldValue))) else none) } := by
    simp only [parse_text_datalog]
    rw [hlines2]
  have hne2 : ∀ r : Rec, numFieldsOf dl.channels r ≠ [] := by
    intro r
    unfold numFieldsOf
    cases hc2 : dl.channels with
    | nil => exact absurd hc2 hcs
    | cons a t2 => simp
  have hstepfn : ∀ r ∈ dl.records, ∀ t : List Char, t = [] ∨ t = ['\r'] →
      (fun line => if (splitOnChar (if (',') ∈ List.intercalate [','] dl.channels ++ ['\r'] then ',' else '\t') line).length = (((splitOnChar (if (',') ∈ List.intercalate [','] dl.channels ++ ['\r'] then ',' else '\t') (List.intercalate [','] dl.channels ++ ['\r'])).map (fun c => pyStripQuote (pyStrip c))).map mapColumn).length then some (pyDict (List.zip (((splitOnChar (if (',') ∈ List.intercalate [','] dl.channels ++ ['\r'] then ',' else '\t') (List.intercalate [','] dl.channels ++ ['\r'])).map (fun c => pyStripQuote (pyStrip c))).map mapColumn) ((splitOnChar (if (',') ∈ List.intercalate [','] dl.channels ++ ['\r'] then ',' else '\t') line).map fieldValue))) else none) (rowBodyOf dl.channels r ++ t)
        = some (roundRec dl.channels r) := by
    intro r hr t ht
    have hft : ∀ x, fieldValue (x ++ t) = fieldValue x := by
      intro x
      rcases ht with h | h
      · rw [h, List.append_nil]
      · rw [h]
        apply fieldValue_append_ws
        intro c hc
        simp at hc
        rw [hc]
        rfl
    show (if (splitOnChar (if (',') ∈ List.intercalate [','] dl.channels ++ ['\r'] then ',' else '\t') (rowBodyOf dl.channels r ++ t)).length = (((splitOnChar (if (',') ∈ List.intercalate [','] dl.channels ++ ['\r'] then ',' else '\t') (List.intercalate [','] dl.channels ++ ['\r'])).map (fun c => pyStripQuote (pyStrip c))).map mapColumn).length then some (pyDict (List.zip (((splitOnChar (if (',') ∈ List.intercalate [','] dl.channels ++ ['\r'] then ',' else '\t') (List.intercalate [','] dl.channels ++ ['\r'])).map (fun c => pyStripQuote (pyStrip c))).map mapColumn) ((splitOnChar (if (',') ∈ List.intercalate [','] dl.channels ++ ['\r'] then ',' else '\t') (rowBodyOf dl.channels r ++ t)).map fieldValue))) else none)
      = some (roundRec dl.channels r)
    rw [hsplitR r t ht, hmapped]
    have hlen : (appendToLast t (numFieldsOf dl.channels r)).length
        = dl.channels.length := by
      rw [appendToLast_length t _ (hne2 r)]
      unfold numFieldsOf
      exact List.length_map _ _
    rw [if_pos hlen]
    have hvals : (appendToLast t (numFieldsOf dl.channels r)).map fieldValue
        = dl.channels.map (fun ch => recGetD r ch 0) := by
      rw [appendToLast_map fieldValue t hft _ (hne2 r)]
      unfold numFieldsOf
      rw [List.map_map]
      apply List.map_congr_left
      intro ch _
      show fieldValue (ratToDecStr (recGetD r ch 0)) = recGetD r ch 0
      exact fieldValue_ratToDecStr _ (hden r hr ch)
    rw [hvals]
    rfl
  have hrec2 : (l₁ :: rest).filterMap (fun line => if (splitOnChar (if (',') ∈ List.intercalate [','] dl.channels ++ ['\r'] then ',' else '\t') line).length = (((splitOnChar (if (',') ∈ List.intercalate [','] dl.channels ++ ['\r'] then ',' else '\t') (List.intercalate [','] dl.channels ++ ['\r'])).map (fun c => pyStripQuote (pyStrip c))).map mapColumn).length then some (pyDict (List.zip (((splitOnChar (if (',') ∈ List.intercalate [','] dl.channels ++ ['\r'] then ',' else '\t') (List.intercalate [','] dl.channels ++ ['\r'])).map (fun c => pyStripQuote (pyStrip c))).map mapColumn) ((splitOnChar (if (',') ∈ List.intercalate [','] dl.channels ++ ['\r'] then ',' else '\t') line).map fieldValue))) else none)
      = dl.records.map (roundRec dl.channels) := by
    rw [← hlr]
    exact filterMap_linesOf _ (rowBodyOf dl.channels) (roundRec dl.channels)
      dl.records hrs hstepfn
  refine ⟨?_, ?_, ?_⟩
  · rw [hstep]
    exact hmapped
  · rw [hstep]
    show ((l₁ :: rest).filterMap (fun line => if (splitOnChar (if (',') ∈ List.intercalate [','] dl.channels ++ ['\r'] then ',' else '\t') line).length = (((splitOnChar (if (',') ∈ List.intercalate [','] dl.channels ++ ['\r'] then ',' else '\t') (List.intercalate [','] dl.channels ++ ['\r'])).map (fun c => pyStripQuote (pyStrip c))).map mapColumn).length then some (pyDict (List.zip (((splitOnChar (if (',') ∈ List.intercalate [','] dl.channels ++ ['\r'] then ',' else '\t') (List.intercalate [','] dl.channels ++ ['\r'])).map (fun c => pyStripQuote (pyStrip c))).map mapColumn) ((splitOnChar (if (',') ∈ List.intercalate [','] dl.channels ++ ['\r'] then ',' else '\t') line).map fieldValue))) else none)).length
      = dl.records.length
    rw [hrec2]
    exact List.length_map _ _
  · intro i ch hch
    rw [hstep]
    show recGetD (((l₁ :: rest).filterMap (fun line =>
        if (splitOnChar (if (',') ∈ List.intercalate [','] dl.channels ++ ['\r'] then ',' else '\t') line).length = (((splitOnChar (if (',') ∈ List.intercalate [','] dl.channels ++ ['\r'] then ',' else '\t') (List.intercalate [','] dl.channels ++ ['\r'])).map (fun c => pyStripQuote (pyStrip c))).map mapColumn).length then some (pyDict (List.zip (((splitOnChar (if (',') ∈ List.intercalate [','] dl.channels ++ ['\r'] then ',' else '\t') (List.intercalate [','] dl.channels ++ ['\r'])).map (fun c => pyStripQuote (pyStrip c))).map mapColumn) ((splitOnChar (if (',') ∈ List.intercalate [','] dl.channels ++ ['\r'] then ',' else '\t') line).map fieldValue))) else none)).getD i []) ch 0
      = recGetD (dl.records.getD i []) ch 0
    rw [hrec2]
    by_cases hi : i < dl.records.length
    · rw [getD_map_lt _ _ _ hi]
      exact pyDict_zip_lookup _ _ _ hch
    · push_neg at hi
      rw [getD_ge _ _ _ (by rw [List.length_map]; exact hi),
        getD_ge _ _ _ hi]

/-- **C6.** Corrected round-trip property of the csv export: for a
datalog built by the text parser from delimited input, exporting with
`to_csv` and re-parsing with the text parser preserves the channel
list, the record count and every per-channel numeric value — provided
no channel name contains a quote, comma or carriage return (the csv
writer would quote and double-quote such names, which the quote-naive
text parser cannot undo — see the counterexample), and a
single-channel log has a nonempty, tab-free channel name (otherwise
the re-parse falls back to the tab delimiter or strips the blank
header line). -/
theorem csv_round_trip (text fp : List Char)
    (hne : (parse_text_datalog text fp).records ≠ [])
    (hq : ∀ ch ∈ (parse_text_datalog text fp).channels,
      '\x22' ∉ ch ∧ ',' ∉ ch ∧ '\r' ∉ ch)
    (hone : (parse_text_datalog text fp).channels.length = 1 →
      ∀ ch ∈ (parse_text_datalog text fp).channels, ch ≠ [] ∧ '\t' ∉ ch) :
    (parse_text_datalog (to_csv (parse_text_datalog text fp)) fp).channels
      = (parse_text_datalog text fp).channels
    ∧ (parse_text_datalog (to_csv (parse_text_datalog text fp))
        fp).records.length
      = (parse_text_datalog text fp).records.length
    ∧ ∀ (i : Nat) (ch : List Char),
        ch ∈ (parse_text_datalog text fp).channels →
        recGetD ((parse_text_datalog (to_csv (parse_text_datalog text fp))
            fp).records.getD i []) ch 0
          = recGetD ((parse_text_datalog text fp).records.getD i []) ch 0 :=
  csv_round_trip_kernel (parse_text_datalog text fp) fp hne
    (parse_channels_ne_nil text fp hne)
    (parse_channels_inv text fp) hq
    (fun ch hch =>
      hone (by rw [hch]; rfl) ch (by rw [hch]; exact List.mem_cons_self _ _))
    (parse_records_den text fp)

set_option maxRecDepth 40000 in
theorem csv_round_trip_witness :
    ((parse_text_datalog (str "rpm,afr\n1,2.5\n3,4")
        (str "log.csv")).records ≠ []
    ∧ (∀ ch ∈ (parse_text_datalog (str "rpm,afr\n1,2.5\n3,4")
        (str "log.csv")).channels, '\x22' ∉ ch ∧ ',' ∉ ch ∧ '\r' ∉ ch))
    ∧ ((parse_text_datalog (to_csv (parse_text_datalog
          (str "rpm,afr\n1,2.5\n3,4") (str "log.csv")))
          (str "log.csv")).channels
        = (parse_text_datalog (str "rpm,afr\n1,2.5\n3,4")
            (str "log.csv")).channels
      ∧ (parse_text_datalog (to_csv (parse_text_datalog
            (str "rpm,afr\n1,2.5\n3,4") (str "log.csv")))
            (str "log.csv")).records.length
        = (parse_text_datalog (str "rpm,afr\n1,2.5\n3,4")
            (str "log.csv")).records.length
      ∧ ∀ (i : Nat) (ch : List Char),
          ch ∈ (parse_text_datalog (str "rpm,afr\n1,2.5\n3,4")
            (str "log.csv")).channels →
          recGetD ((parse_text_datalog (to_csv (parse_text_datalog
              (str "rpm,afr\n1,2.5\n3,4") (str "log.csv")))
              (str "log.csv")).records.getD i []) ch 0
            = recGetD ((parse_text_datalog (str "rpm,afr\n1,2.5\n3,4")
                (str "log.csv")).records.getD i []) ch 0) :=
  ⟨⟨by with_unfolding_all decide, by with_unfolding_all decide⟩,
    csv_round_trip (str "rpm,afr\n1,2.5\n3,4") (str "log.csv")
      (by with_unfolding_all decide) (by with_unfolding_all decide)
      (by with_unfolding_all decide)⟩

set_option maxRecDepth 40000 in
/-- Counterexample to the unconditional round-trip claim: a quote
character inside a channel name survives the text parser (only edge
quotes are stripped), so the csv writer quotes the name and doubles
the embedded quote; re-parsing strips only the edge quotes and keeps
the doubled one, changing the channel set even though every field of
the input is numeric. -/
theorem csv_round_trip_counterexample :
    (parse_text_datalog (str "a\x22b,c\n1,2") (str "log.csv")).channels
      = [str "a\x22b", str "c"]
    ∧ (parse_text_datalog (str "a\x22b,c\n1,2") (str "log.csv")).records ≠ []
    ∧ (parse_text_datalog (to_csv (parse_text_datalog (str "a\x22b,c\n1,2")
        (str "log.csv"))) (str "log.csv")).channels
      = [str "a\x22\x22b", str "c"]
    ∧ (parse_text_datalog (to_csv (parse_text_datalog (str "a\x22b,c\n1,2")
        (str "log.csv"))) (str "log.csv")).channels
      ≠ (parse_text_datalog (str "a\x22b,c\n1,2") (str "log.csv")).channels := by
  with_unfolding_all decide

end Dlz
